import Mathlib

/-!
Multiprocessor scheduling: the timeline bookkeeping of `TimeSchedule`

A shallow embedding of `src/code/time_schedule/time_schedule.cpp` and of the
parts of `src/code/schedule/schedule.hpp` it consults.

Conventions of the embedding.

* `int` values are unbounded `Int`; the statements below concern runs without
  signed overflow.  The `size_t` counters are `Nat`.  `test_add_task` is
  declared `int` in the header and defined `std::size_t` in the source file;
  its value is the `int` that `std::max` yields and every caller stores it in
  an `int` again, so it is an `Int` here.
* `std::vector` is `List`, `std::map<Task, Proc>` is a partial function
  `Task → Option Proc`.
* Undefined behaviour of the source (dereferencing the end iterator of an
  empty range, `back()` of an empty vector, `operator[]` past the end of a
  vector) is the result `none`.
* `Schedule` is only declared in `schedule.hpp`; its accessors are fields of
  the structure `Schedule`, i.e. parameters of everything below.
* The `std::size_t` product, difference and multiple in `calculate_BF` are
  computed modulo `2 ^ 64`.  The sum of the sizes of the timelines counts
  entries that are in memory, so it is the plain sum.
* The integer quotients that `calculate_CR`, `calculate_CR2` and
  `calculate_BF` convert to `double` are kept as `Nat`.
* The `double` arithmetic of `GC2_CR` and `GC2_BF` is a parameter
  (`DoubleArith`): the conversion of an integer to `double`, the product, the
  sum, the conversion to `int` and the value of a literal.  What is proved for
  every `DoubleArith` holds for IEEE arithmetic.  `exact_arith` computes with
  exact rationals and truncates toward zero; it agrees with IEEE arithmetic
  where every value involved is exactly representable.
-/

namespace MultiprocessorScheduling

/-- `Schedule::Task`, a vertex descriptor of a `vecS` graph. -/
abbrev Task := Nat

/-- `Schedule::Proc`. -/
abbrev Proc := Nat

/-- The accessors of `Schedule` used by `TimeSchedule`.  `get_in_edges task`
lists `boost::source` of every incoming edge of `task`, in iteration order. -/
structure Schedule where
  get_in_edges : Task → List Task
  get_task_time : Proc → Task → Int
  get_tran_time : Proc → Proc → Int
  is_direct_connection : Proc → Proc → Bool
  num_edges : Nat

/-- `TimeSchedule::PlacedTask`. -/
structure PlacedTask where
  task : Task
  start : Int
  finish : Int
  deriving DecidableEq, Repr

/-- `TimeSchedule::proc_info`. -/
abbrev proc_info := List PlacedTask

/-- The data members of `TimeSchedule`. -/
structure TimeSchedule where
  proc_array : List proc_info
  fast_mapping : Task → Option Proc
  amount_of_transitions : Nat
  amount_of_indirect_transitions : Nat

/-- `TimeSchedule::TimeSchedule(proc_num)`: `proc_num` empty timelines, an
empty map and both counters zero. -/
def TimeSchedule.init (proc_num : Nat) : TimeSchedule :=
  { proc_array := List.replicate proc_num []
    fast_mapping := fun _ => none
    amount_of_transitions := 0
    amount_of_indirect_transitions := 0 }

/-- `std::max_element(first, last, comp)` followed by a dereference: the first
largest element, `none` on an empty range. -/
def max_element {α : Type} (comp : α → α → Bool) : List α → Option α
  | [] => none
  | x :: xs => some (xs.foldl (fun largest y => if comp largest y then y else largest) x)

/-- `std::min_element(first, last, comp)` followed by a dereference: the first
smallest element, `none` on an empty range. -/
def min_element {α : Type} (comp : α → α → Bool) : List α → Option α
  | [] => none
  | x :: xs => some (xs.foldl (fun smallest y => if comp y smallest then y else smallest) x)

/-- `fast_mapping[k]` for `std::map`: the stored value, or a value-initialised
`0` that is inserted when the key is absent. -/
def map_index (m : Task → Option Proc) (k : Task) : Proc × (Task → Option Proc) :=
  match m k with
  | some v => (v, m)
  | none => (0, Function.update m k (some 0))

/-- The value `fast_mapping[k]` reads: the stored processor, `0` for an absent key. -/
def map_value (m : Task → Option Proc) (k : Task) : Proc :=
  (m k).getD 0

/-- The first loop of `test_add_task`: for every incoming edge push
`get_task_time(proc, task) + get_tran_time(fast_mapping[from], proc)` on `times`. -/
def test_add_task_times (sched : Schedule) (task : Task) (proc : Proc) :
    List Task → (Task → Option Proc) → List Int → List Int × (Task → Option Proc)
  | [], fm, times => (times, fm)
  | frm :: rest, fm, times =>
    let trans_time := sched.get_task_time proc task
    let r := map_index fm frm
    let task_time := sched.get_tran_time r.1 proc
    test_add_task_times sched task proc rest r.2 (times ++ [trans_time + task_time])

/-- `TimeSchedule::test_add_task`.  Returns the value and the object after the
call (`fast_mapping[from]` may insert). -/
def test_add_task (sched : Schedule) (task : Task) (proc : Proc) (ts : TimeSchedule) :
    Option (Int × TimeSchedule) :=
  let r := test_add_task_times sched task proc (sched.get_in_edges task) ts.fast_mapping []
  match max_element (fun a b => decide (a < b)) r.1 with
  | none => none
  | some first_available_dependencies =>
    match ts.proc_array[proc]? with
    | none => none
    | some stuff =>
      let first_available_processor : Int :=
        match max_element (fun a b => decide (a.finish < b.finish)) stuff with
        | some e => e.finish
        | none => 0
      some (max first_available_dependencies first_available_processor,
            { ts with fast_mapping := r.2 })

/-- `proc_array[proc].push_back(placed_task)`. -/
def push_back_at : List proc_info → Proc → PlacedTask → List proc_info
  | [], _, _ => []
  | a :: rest, 0, e => (a ++ [e]) :: rest
  | a :: rest, p + 1, e => a :: push_back_at rest p e

/-- The counting loop of `add_task` over the incoming edges. -/
def add_task_count (sched : Schedule) (proc : Proc) :
    List Task → (Task → Option Proc) → Nat → Nat → (Task → Option Proc) × Nat × Nat
  | [], fm, tr, ind => (fm, tr, ind)
  | frm :: rest, fm, tr, ind =>
    let r := map_index fm frm
    if r.1 ≠ proc then
      let r2 := map_index r.2 frm
      if !sched.is_direct_connection r2.1 proc then
        add_task_count sched proc rest r2.2 (tr + 1) (ind + 1)
      else
        add_task_count sched proc rest r2.2 (tr + 1) ind
    else
      add_task_count sched proc rest r.2 tr ind

/-- `TimeSchedule::add_task`. -/
def add_task (sched : Schedule) (task : Task) (proc : Proc) (ts : TimeSchedule) :
    Option TimeSchedule :=
  match test_add_task sched task proc ts with
  | none => none
  | some (x, ts1) =>
    let placed_task : PlacedTask := ⟨task, x, x + sched.get_task_time proc task⟩
    let r := add_task_count sched proc (sched.get_in_edges task)
      (Function.update ts1.fast_mapping task (some proc))
      ts1.amount_of_transitions ts1.amount_of_indirect_transitions
    some { proc_array := push_back_at ts1.proc_array proc placed_task
           fast_mapping := r.1
           amount_of_transitions := r.2.1
           amount_of_indirect_transitions := r.2.2 }

/-- The `back()` of every timeline, `none` as soon as one timeline is empty. -/
def backs : List proc_info → Option (List PlacedTask)
  | [] => some []
  | a :: rest =>
    match a.getLast?, backs rest with
    | some e, some es => some (e :: es)
    | _, _ => none

/-- `TimeSchedule::get_time`.  The comparator calls `back()` on every timeline
it is handed, and the result is `back()` of the selected one. -/
def get_time (ts : TimeSchedule) : Option Int :=
  match backs ts.proc_array with
  | none => none
  | some es =>
    match max_element (fun a b => decide (a.finish < b.finish)) es with
    | none => none
    | some e => some e.finish

/-- The loop of `GC2`: `times.push_back({i, test_add_task(sched, task, i)})`
for the processors listed, in order. -/
def GC2_times (sched : Schedule) (task : Task) :
    List Proc → TimeSchedule → List (Proc × Int) → Option (List (Proc × Int) × TimeSchedule)
  | [], ts, times => some (times, ts)
  | i :: rest, ts, times =>
    match test_add_task sched task i ts with
    | none => none
    | some (x, ts1) => GC2_times sched task rest ts1 (times ++ [(i, x)])

/-- `TimeSchedule::GC2`. -/
def GC2 (sched : Schedule) (task : Task) (ts : TimeSchedule) : Option (Proc × TimeSchedule) :=
  match GC2_times sched task (List.range ts.proc_array.length) ts [] with
  | none => none
  | some (times, ts1) =>
    match min_element (fun a b => decide (a.2 < b.2)) times with
    | none => none
    | some best_proc => some (best_proc.1, ts1)

/-- `TimeSchedule::calculate_CR`: the quotient
`amount_of_transitions / boost::num_edges(sched.get_graph())` of two
`std::size_t`, which the `return` converts to `double`.  Division by zero
has no result. -/
def calculate_CR (sched : Schedule) (ts : TimeSchedule) : Option Nat :=
  if sched.num_edges = 0 then none
  else some (ts.amount_of_transitions / sched.num_edges)

/-- `TimeSchedule::calculate_CR2`: as `calculate_CR`, on
`amount_of_indirect_transitions`. -/
def calculate_CR2 (sched : Schedule) (ts : TimeSchedule) : Option Nat :=
  if sched.num_edges = 0 then none
  else some (ts.amount_of_indirect_transitions / sched.num_edges)

/-- `TimeSchedule::calculate_BF`.  `max_tasks` is the size of the first
longest timeline, `amount_of_tasks` the sum of the sizes, and
`100 * ((max_tasks * proc_array.size() / amount_of_tasks) - 1)` is evaluated
in `std::size_t`; `std::ceil` of the converted value is the value itself. -/
def calculate_BF (ts : TimeSchedule) : Option Nat :=
  match max_element (fun a b : proc_info => decide (a.length < b.length)) ts.proc_array with
  | none => none
  | some longest =>
    let max_tasks := longest.length
    let amount_of_tasks := ts.proc_array.foldl (fun amount proc => amount + proc.length) 0
    if amount_of_tasks = 0 then none
    else
      let quotient := (max_tasks * ts.proc_array.length) % 2 ^ 64 / amount_of_tasks
      some ((100 * ((quotient + (2 ^ 64 - 1)) % 2 ^ 64)) % 2 ^ 64)

/-- `TimeSchedule::CR_with_task`: `add_task` on a copy, then `calculate_CR`
of the copy. -/
def CR_with_task (sched : Schedule) (task : Task) (proc : Proc) (ts : TimeSchedule) :
    Option Nat :=
  match add_task sched task proc ts with
  | none => none
  | some copy => calculate_CR sched copy

/-- `TimeSchedule::BF_with_task`: `add_task` on a copy, then `calculate_BF`
of the copy. -/
def BF_with_task (sched : Schedule) (task : Task) (proc : Proc) (ts : TimeSchedule) :
    Option Nat :=
  match add_task sched task proc ts with
  | none => none
  | some copy => calculate_BF copy

/-- The `double` operations that `GC2_CR` and `GC2_BF` perform, as a
parameter: `of_int` converts an integer value to `double`, `mul` and `add`
are the product and the sum of two `double`, `to_int` is the conversion to
the `int` member of `std::pair<Schedule::Proc, int>`, and `lit` is the
`double` a decimal literal denotes. -/
structure DoubleArith (D : Type) where
  of_int : Int → D
  mul : D → D → D
  add : D → D → D
  to_int : D → Int
  lit : ℚ → D

/-- Truncation of a rational toward zero. -/
def double_to_int (d : ℚ) : Int :=
  Int.tdiv d.num d.den

/-- Exact arithmetic on rationals, with truncation toward zero as the
conversion to `int`. -/
def exact_arith : DoubleArith ℚ :=
  { of_int := fun z => (z : ℚ)
    mul := fun a b => a * b
    add := fun a b => a + b
    to_int := double_to_int
    lit := fun q => q }

/-- The loop of `GC2_CR`.  The `LOG_DEBUG` statement evaluates
`test_add_task` and `CR_with_task` once, the `push_back` evaluates them again
and stores `C1 * test_add_task(...) + C2 * CR_with_task(...)` as an `int`. -/
def GC2_CR_times {D : Type} (fp : DoubleArith D) (sched : Schedule) (task : Task)
    (C1 C2 : D) :
    List Proc → TimeSchedule → List (Proc × Int) → Option (List (Proc × Int) × TimeSchedule)
  | [], ts, times => some (times, ts)
  | i :: rest, ts, times =>
    match test_add_task sched task i ts with
    | none => none
    | some (_, ts1) =>
      match CR_with_task sched task i ts1 with
      | none => none
      | some _ =>
        match test_add_task sched task i ts1 with
        | none => none
        | some (x, ts2) =>
          match CR_with_task sched task i ts2 with
          | none => none
          | some cr =>
            GC2_CR_times fp sched task C1 C2 rest ts2
              (times ++ [(i, fp.to_int (fp.add (fp.mul C1 (fp.of_int x))
                (fp.mul C2 (fp.of_int (cr : Int)))))])

/-- `TimeSchedule::GC2_CR`; the coefficient `C3` is not used. -/
def GC2_CR {D : Type} (fp : DoubleArith D) (sched : Schedule) (task : Task)
    (C1 C2 _C3 : D) (ts : TimeSchedule) : Option (Proc × TimeSchedule) :=
  match GC2_CR_times fp sched task C1 C2 (List.range ts.proc_array.length) ts [] with
  | none => none
  | some (times, ts1) =>
    match min_element (fun a b => decide (a.2 < b.2)) times with
    | none => none
    | some best_proc => some (best_proc.1, ts1)

/-- The loop of `GC2_BF`: `times.push_back({i, C1 * test_add_task(...) +
C2 * BF_with_task(...)})`, stored as an `int`. -/
def GC2_BF_times {D : Type} (fp : DoubleArith D) (sched : Schedule) (task : Task)
    (C1 C2 : D) :
    List Proc → TimeSchedule → List (Proc × Int) → Option (List (Proc × Int) × TimeSchedule)
  | [], ts, times => some (times, ts)
  | i :: rest, ts, times =>
    match test_add_task sched task i ts with
    | none => none
    | some (x, ts1) =>
      match BF_with_task sched task i ts1 with
      | none => none
      | some bf =>
        GC2_BF_times fp sched task C1 C2 rest ts1
          (times ++ [(i, fp.to_int (fp.add (fp.mul C1 (fp.of_int x))
            (fp.mul C2 (fp.of_int (bf : Int)))))])

/-- `TimeSchedule::GC2_BF`. -/
def GC2_BF {D : Type} (fp : DoubleArith D) (sched : Schedule) (task : Task)
    (C1 C2 : D) (ts : TimeSchedule) : Option (Proc × TimeSchedule) :=
  match GC2_BF_times fp sched task C1 C2 (List.range ts.proc_array.length) ts [] with
  | none => none
  | some (times, ts1) =>
    match min_element (fun a b => decide (a.2 < b.2)) times with
    | none => none
    | some best_proc => some (best_proc.1, ts1)

/-! ## The driver loop of `main` -/

/-- `TimeSchedule::extra_criteria`. -/
inductive extra_criteria where
  | NO
  | CR
  | BF

/-- Modelled from the spec: the task graph owned by `Schedule`, whose member
functions are only declared in `schedule.hpp`.  It holds the real tasks
`0 .. task_num - 1`, the precedence edges `(from, to)`, the tasks removed so
far (removal is a soft delete that leaves the edges in place) and the cost
and connectivity matrices. -/
structure TaskGraph where
  task_num : Nat
  proc_num : Nat
  edges : List (Task × Task)
  removed : List Task
  task_times : Proc → Task → Int
  tran_times : Proc → Proc → Int
  direct : Proc → Proc → Bool

/-- Modelled from the spec: the accessors of the `Schedule` object over the
graph; `inEdges(task)` produces the incoming precedence edges of `task`, which
placement uses for the data-ready time, and `edgeCount()` is the number of
edges. -/
def TaskGraph.schedule (g : TaskGraph) : Schedule :=
  { get_in_edges := fun task => (g.edges.filter (fun e => e.2 == task)).map Prod.fst
    get_task_time := g.task_times
    get_tran_time := g.tran_times
    is_direct_connection := g.direct
    num_edges := g.edges.length }

/-- Modelled from the spec: `Schedule::get_top_vertices` (`readyFrontier()`),
all tasks currently present in the graph with no unremoved predecessor. -/
def get_top_vertices (g : TaskGraph) : List Task :=
  (List.range g.task_num).filter (fun task =>
    !g.removed.contains task &&
      g.edges.all (fun e => !(e.2 == task) || g.removed.contains e.1))

/-- Modelled from the spec: `Schedule::remove_vertex` (`removeTask(task)`)
marks the task absent; its outgoing edges no longer count for the in-degree
of its successors. -/
def remove_vertex (g : TaskGraph) (task : Task) : TaskGraph :=
  { g with removed := task :: g.removed }

/-- The result of running the driver: it finished with a schedule after a
number of iterations, it ran into undefined behaviour, or the iteration
budget of the model was used up. -/
inductive Outcome where
  | finished (ts : TimeSchedule) (iterations : Nat)
  | undefined
  | out_of_fuel

/-- The `switch (criteria)` of `main`: `GC2`, `GC2_CR(…, 1, 1, 0.5)` or
`GC2_BF(…, 1, 0.7)`. -/
def choose_proc {D : Type} (fp : DoubleArith D) (criteria : extra_criteria)
    (sched : Schedule) (task : Task) (ts : TimeSchedule) : Option (Proc × TimeSchedule) :=
  match criteria with
  | extra_criteria.NO => GC2 sched task ts
  | extra_criteria.CR =>
    GC2_CR fp sched task (fp.of_int 1) (fp.of_int 1) (fp.lit (1 / 2)) ts
  | extra_criteria.BF => GC2_BF fp sched task (fp.of_int 1) (fp.lit (7 / 10)) ts

/-- The `while (!D.empty())` loop of `main`.  `GC1` is the task selector of
`Schedule`, which is only declared; it is a parameter.  `iterations` counts
the completed iterations. -/
def main_loop {D : Type} (fp : DoubleArith D) (GC1 : TaskGraph → List Task → Task)
    (criteria : extra_criteria) :
    Nat → TaskGraph → TimeSchedule → List Task → Nat → Outcome
  | _, _, ts, [], iterations => Outcome.finished ts iterations
  | 0, _, _, _ :: _, _ => Outcome.out_of_fuel
  | fuel + 1, g, ts, d :: ds, iterations =>
    let chosen_task := GC1 g (d :: ds)
    match choose_proc fp criteria g.schedule chosen_task ts with
    | none => Outcome.undefined
    | some (chosen_proc, ts1) =>
      match add_task g.schedule chosen_task chosen_proc ts1 with
      | none => Outcome.undefined
      | some ts2 =>
        let g1 := remove_vertex g chosen_task
        main_loop fp GC1 criteria fuel g1 ts2 (get_top_vertices g1) (iterations + 1)

/-- The part of `main` after the input is read: a `TimeSchedule` with
`get_proc_num()` processors, the first frontier, the loop, and `get_time()`
for the final report.  The fictive root that `main` attaches and removes
again before the loop leaves the graph of real tasks as it was.  The result
is the final schedule, the number of iterations and the reported time. -/
def main_run {D : Type} (fp : DoubleArith D) (GC1 : TaskGraph → List Task → Task)
    (criteria : extra_criteria) (fuel : Nat) (g : TaskGraph) :
    Option (TimeSchedule × Nat × Int) :=
  match main_loop fp GC1 criteria fuel g (TimeSchedule.init g.proc_num) (get_top_vertices g) 0 with
  | Outcome.finished ts iterations =>
    match get_time ts with
    | none => none
    | some time => some (ts, iterations, time)
  | _ => none

/-! ## Predicates and reference formulas of the specification -/

/-- All execution costs of the schedule are non-negative. -/
def NonNegCosts (sched : Schedule) : Prop :=
  ∀ proc task, 0 ≤ sched.get_task_time proc task

/-- States reached from `TimeSchedule(proc_num)` by calls of `add_task` that
return, each against a `Schedule` satisfying `P` (the driver removes vertices
from the graph between two commits, so the `Schedule` may differ per call). -/
inductive Reachable (P : Schedule → Prop) (proc_num : Nat) : TimeSchedule → Prop
  | init : Reachable P proc_num (TimeSchedule.init proc_num)
  | step {ts ts1 : TimeSchedule} (sched : Schedule) (task : Task) (proc : Proc) :
      Reachable P proc_num ts → P sched → add_task sched task proc ts = some ts1 →
      Reachable P proc_num ts1

/-- The serial-timeline predicate: on every processor consecutive entries
satisfy `timeline[i].finish ≤ timeline[i+1].start` and starts are
non-decreasing in commit order. -/
def serial (ts : TimeSchedule) : Prop :=
  ∀ (proc : Proc) (timeline : proc_info), ts.proc_array[proc]? = some timeline →
    ∀ (i : Nat) (a b : PlacedTask), timeline[i]? = some a → timeline[i + 1]? = some b →
      a.finish ≤ b.start ∧ a.start ≤ b.start

/-- No two committed intervals of one processor overlap: an earlier entry
finishes before any later entry starts. -/
def no_overlap (ts : TimeSchedule) : Prop :=
  ∀ (proc : Proc) (timeline : proc_info), ts.proc_array[proc]? = some timeline →
    ∀ (i j : Nat) (a b : PlacedTask), i < j → timeline[i]? = some a → timeline[j]? = some b →
      a.finish ≤ b.start

/-- The committed entry of `task`: the entry carrying it on the timeline of
the processor the mapping records for it. -/
def placed (ts : TimeSchedule) (task : Task) : Option PlacedTask :=
  match ts.fast_mapping task with
  | none => none
  | some proc =>
    match ts.proc_array[proc]? with
    | none => none
    | some timeline => timeline.find? (fun e => e.task == task)

/-- The largest value of a list of times, `0` for the empty list. -/
def max_or_zero : List Int → Int
  | [] => 0
  | x :: xs => xs.foldl max x

/-- The formula of the specification for `evaluateStart`, in its words:
`dataReady` is the maximum over the incoming edges `(from, task)` of
`finish(from) + transmissionCost(assignedProcessor(from), processor)` (an
uncommitted predecessor has no finish time: `none`), `0` without incoming
edges; `procFree` is the finish time of the last committed task on
`processor`, or `0`; the start is the larger of the two. -/
def evaluateStart_spec (sched : Schedule) (task : Task) (proc : Proc) (ts : TimeSchedule) :
    Option Int :=
  match (sched.get_in_edges task).mapM (fun frm =>
      match placed ts frm, ts.fast_mapping frm with
      | some e, some p => some (e.finish + sched.get_tran_time p proc)
      | _, _ => none) with
  | none => none
  | some ready =>
    let dataReady := max_or_zero ready
    let procFree : Int :=
      match (ts.proc_array[proc]?).bind List.getLast? with
      | some e => e.finish
      | none => 0
    some (max dataReady procFree)

/-- Every finish time recorded in the schedule, over all processors. -/
def all_finishes (ts : TimeSchedule) : List Int :=
  (ts.proc_array.flatten).map PlacedTask.finish

/-- The list `times` that `test_add_task` builds, as a function of the values
`fast_mapping[from]` reads. -/
def dep_times (sched : Schedule) (task : Task) (proc : Proc) (fm : Task → Option Proc) :
    List Int :=
  (sched.get_in_edges task).map
    (fun frm => sched.get_task_time proc task + sched.get_tran_time (map_value fm frm) proc)

/-- The map after `fast_mapping[k]` has been evaluated for every `k` of a
list: stored entries are kept, every other listed key holds `0`. -/
def touch (fm : Task → Option Proc) (l : List Task) : Task → Option Proc :=
  fun j =>
    match fm j with
    | some v => some v
    | none => if j ∈ l then some 0 else none

/-- The invariant of one timeline that the commits maintain: every entry has
`0 ≤ start ≤ finish`, and an earlier entry finishes before a later one starts. -/
def timeline_ok (timeline : proc_info) : Prop :=
  (∀ e ∈ timeline, 0 ≤ e.start ∧ e.start ≤ e.finish) ∧
  timeline.Pairwise (fun a b => a.finish ≤ b.start)

/-- The timeline invariant on every processor. -/
def state_ok (ts : TimeSchedule) : Prop :=
  ∀ (proc : Proc) (timeline : proc_info), ts.proc_array[proc]? = some timeline →
    timeline_ok timeline

/-- The incoming edges of `task` that `add_task` counts as transitions: those
whose source reads a processor different from `proc` in the map `fm`. -/
def crossing (proc : Proc) (fm : Task → Option Proc) (l : List Task) :
    List Task :=
  l.filter (fun frm => decide (map_value fm frm ≠ proc))

/-- The counted edges that are moreover indirect. -/
def crossing_indirect (sched : Schedule) (proc : Proc) (fm : Task → Option Proc)
    (l : List Task) : List Task :=
  (crossing proc fm l).filter
    (fun frm => !sched.is_direct_connection (map_value fm frm) proc)

/-- The source `frm` of an incoming edge is mapped, in `fm`, to a processor
different from `proc`. -/
def mapped_elsewhere (fm : Task → Option Proc) (proc : Proc) (frm : Task) : Bool :=
  match fm frm with
  | some q => decide (q ≠ proc)
  | none => false

/-- The source `frm` is mapped, in `fm`, to a processor different from `proc`
that has no direct connection to `proc`. -/
def mapped_indirect (sched : Schedule) (fm : Task → Option Proc) (proc : Proc)
    (frm : Task) : Bool :=
  match fm frm with
  | some q => decide (q ≠ proc) && !sched.is_direct_connection q proc
  | none => false

/-- The makespan in the words of the specification: the maximum over all
processors of the finish time of the last committed task, an idle processor
contributing `0`. -/
def makespan_spec (ts : TimeSchedule) : Int :=
  max_or_zero (ts.proc_array.map (fun timeline =>
    match timeline.getLast? with
    | some e => e.finish
    | none => 0))

/-- The value `GC2_CR` compares for processor `proc`, computed on the state
before the call: `C1 * test_add_task(...) + C2 * CR_with_task(...)` as an `int`. -/
def cost_CR {D : Type} (fp : DoubleArith D) (sched : Schedule) (task : Task) (C1 C2 : D) (ts : TimeSchedule) (proc : Proc) :
    Option Int :=
  match test_add_task sched task proc ts, CR_with_task sched task proc ts with
  | some (x, _), some cr => some (fp.to_int (fp.add (fp.mul C1 (fp.of_int x)) (fp.mul C2 (fp.of_int (cr : Int)))))
  | _, _ => none

/-- The value `GC2_BF` compares for processor `proc`, computed on the state
before the call: `C1 * test_add_task(...) + C2 * BF_with_task(...)` as an `int`. -/
def cost_BF {D : Type} (fp : DoubleArith D) (sched : Schedule) (task : Task) (C1 C2 : D) (ts : TimeSchedule) (proc : Proc) :
    Option Int :=
  match test_add_task sched task proc ts, BF_with_task sched task proc ts with
  | some (x, _), some bf => some (fp.to_int (fp.add (fp.mul C1 (fp.of_int x)) (fp.mul C2 (fp.of_int (bf : Int)))))
  | _, _ => none

/-- The value `GC2` compares for processor `proc`, computed on the state
before the call: `test_add_task(sched, task, proc)`. -/
def cost_GC2 (sched : Schedule) (task : Task) (ts : TimeSchedule) (proc : Proc) :
    Option Int :=
  (test_add_task sched task proc ts).map Prod.fst

/-- Two states that `test_add_task`, `add_task` and the metrics cannot tell
apart: same timelines, same values read from the map, same counters. -/
def same_view (ts ts0 : TimeSchedule) : Prop :=
  ts.proc_array = ts0.proc_array ∧
  (∀ j, map_value ts.fast_mapping j = map_value ts0.fast_mapping j) ∧
  ts.amount_of_transitions = ts0.amount_of_transitions ∧
  ts.amount_of_indirect_transitions = ts0.amount_of_indirect_transitions

/-- The common shape of the three selector loops: evaluate a cost for every
listed processor, threading the state, and push `{i, cost}`. -/
def sel_times (eval : Proc → TimeSchedule → Option (Int × TimeSchedule)) :
    List Proc → TimeSchedule → List (Proc × Int) → Option (List (Proc × Int) × TimeSchedule)
  | [], ts, times => some (times, ts)
  | i :: rest, ts, times =>
    match eval i ts with
    | none => none
    | some (c, ts1) => sel_times eval rest ts1 (times ++ [(i, c)])

/-- One iteration of the loop of `GC2_CR`, as a cost evaluation. -/
def eval_CR {D : Type} (fp : DoubleArith D) (sched : Schedule) (task : Task) (C1 C2 : D) (i : Proc) (ts : TimeSchedule) :
    Option (Int × TimeSchedule) :=
  match test_add_task sched task i ts with
  | none => none
  | some (_, ts1) =>
    match CR_with_task sched task i ts1 with
    | none => none
    | some _ =>
      match test_add_task sched task i ts1 with
      | none => none
      | some (x, ts2) =>
        match CR_with_task sched task i ts2 with
        | none => none
        | some cr => some (fp.to_int (fp.add (fp.mul C1 (fp.of_int x)) (fp.mul C2 (fp.of_int (cr : Int)))), ts2)

/-- One iteration of the loop of `GC2_BF`, as a cost evaluation. -/
def eval_BF {D : Type} (fp : DoubleArith D) (sched : Schedule) (task : Task) (C1 C2 : D) (i : Proc) (ts : TimeSchedule) :
    Option (Int × TimeSchedule) :=
  match test_add_task sched task i ts with
  | none => none
  | some (x, ts1) =>
    match BF_with_task sched task i ts1 with
    | none => none
    | some bf => some (fp.to_int (fp.add (fp.mul C1 (fp.of_int x)) (fp.mul C2 (fp.of_int (bf : Int)))), ts1)

/-- The number of committed tasks: the sum of the sizes of the timelines. -/
def total_tasks (l : List proc_info) : Nat :=
  (l.map List.length).sum

/-- Processor `p` is the lowest-index minimum of `cost` among the processors
`0 .. n - 1`: it is one of them, its cost is at most every cost, and every
processor with a smaller index has a strictly larger cost. -/
def lowest_index_minimum (cost : Proc → Option Int) (n : Nat) (p : Proc) : Prop :=
  p < n ∧ ∃ cp, cost p = some cp ∧
    (∀ q, q < n → ∃ cq, cost q = some cq ∧ cp ≤ cq) ∧
    (∀ q, q < p → ∃ cq, cost q = some cq ∧ cp < cq)

/-- A sequence of commits `add_task(sched, task, proc)` against one graph,
in order; `none` as soon as one of them has no result. -/
def run_commits (sched : Schedule) : List (Task × Proc) → TimeSchedule → Option TimeSchedule
  | [], ts => some ts
  | (task, proc) :: rest, ts =>
    match add_task sched task proc ts with
    | none => none
    | some ts1 => run_commits sched rest ts1

/-- The sources of the edges of an edge list that end in `task`. -/
def in_edges_of (edges : List (Task × Task)) (task : Task) : List Task :=
  (edges.filter (fun e => e.2 == task)).map Prod.fst

/-- The edges of an edge list whose target is one of the committed tasks. -/
def edges_into (edges : List (Task × Task)) (committed : List Task) : List (Task × Task) :=
  edges.filter (fun e => decide (e.2 ∈ committed))

/-! ## Concrete schedules used to evaluate the code -/

/-- Tasks `0` and `1` with the edge `0 → 1`; vertex `2` is a source of `0`
that is never committed.  Task `0` costs `10`, every other task `1`, and
transmission is free. -/
def chain_sched : Schedule :=
  { get_in_edges := fun t => if t = 0 then [2] else if t = 1 then [0] else []
    get_task_time := fun _ t => if t = 0 then 10 else 1
    get_tran_time := fun _ _ => 0
    is_direct_connection := fun _ _ => true
    num_edges := 2 }

/-- The state after `add_task(chain_sched, 0, 0)` on one idle processor: the
timeline of processor `0` is `[{0, 10, 20}]`. -/
def one_proc_state : TimeSchedule :=
  (add_task chain_sched 0 0 (TimeSchedule.init 1)).getD (TimeSchedule.init 1)

/-- One task `1` with a single incoming edge from vertex `0`; it costs `5` on
processor `0` and `1` on processor `1`, and moving data to processor `1`
costs `5`. -/
def skew_sched : Schedule :=
  { get_in_edges := fun t => if t = 1 then [0] else []
    get_task_time := fun p _ => if p = 0 then 5 else 1
    get_tran_time := fun _ q => if q = 0 then 0 else 5
    is_direct_connection := fun _ _ => true
    num_edges := 1 }

/-- The scenario of the specification: the chain `0 → 1 → 2 → 3` on two
processors, every execution cost `1`, every transmission cost `0`. -/
def chain4 : TaskGraph :=
  { task_num := 4
    proc_num := 2
    edges := [(0, 1), (1, 2), (2, 3)]
    removed := []
    task_times := fun _ _ => 1
    tran_times := fun _ _ => 0
    direct := fun _ _ => true }

/-- One task, no edge, one processor, execution cost `1`. -/
def single_task : TaskGraph :=
  { task_num := 1
    proc_num := 1
    edges := []
    removed := []
    task_times := fun _ _ => 1
    tran_times := fun _ _ => 0
    direct := fun _ _ => true }

/-- A task selector that returns the first task of the frontier. -/
def first_of_frontier : TaskGraph → List Task → Task :=
  fun _ D => D.headD 0

/-- The chain `3 → 0 → 1 → 2` with unit execution costs and free
transmission; vertex `3` is a source that is never committed.  The graph has
three edges. -/
def tri_sched : Schedule :=
  { get_in_edges := fun t => if t = 0 then [3] else if t = 1 then [0] else
      if t = 2 then [1] else []
    get_task_time := fun _ _ => 1
    get_tran_time := fun _ _ => 0
    is_direct_connection := fun _ _ => true
    num_edges := 3 }

/-- The state after tasks `0` and `1` of `tri_sched` are committed on
processor `0` and task `2` on processor `1`: task counts `(2, 1)`. -/
def two_one_state : TimeSchedule :=
  (((add_task tri_sched 0 0 (TimeSchedule.init 2)).bind (add_task tri_sched 1 0)).bind
    (add_task tri_sched 2 1)).getD (TimeSchedule.init 2)

/-- Task `1` with the single incoming edge `0 → 1`; it costs `1` on processor
`0` and `0` on processor `1`, transmission is free. -/
def half_sched : Schedule :=
  { get_in_edges := fun t => if t = 1 then [0] else []
    get_task_time := fun p _ => if p = 0 then 1 else 0
    get_tran_time := fun _ _ => 0
    is_direct_connection := fun _ _ => true
    num_edges := 1 }

/-- Two independent tasks: a graph without edges. -/
def no_edge_sched : Schedule :=
  { get_in_edges := fun _ => []
    get_task_time := fun _ _ => 1
    get_tran_time := fun _ _ => 0
    is_direct_connection := fun _ _ => true
    num_edges := 0 }

/-- The state after task `0` of `chain_sched` is committed on processor `0`
and its successor `1` on processor `1`: one of the two edges crosses. -/
def crossed_state : TimeSchedule :=
  ((add_task chain_sched 0 0 (TimeSchedule.init 2)).bind (add_task chain_sched 1 1)).getD
    (TimeSchedule.init 2)

/-- The communication ratio in the words of the specification:
`CR = totalTransitions / totalGraphEdges`, as a fraction. -/
def CR_spec (sched : Schedule) (ts : TimeSchedule) : ℚ :=
  (ts.amount_of_transitions : ℚ) / (sched.num_edges : ℚ)

/-- The balance factor in the words of the specification:
`ceil(100 * ((maxTasksOnAnyProcessor * processorCount / totalCommittedTasks) - 1))`
with the quotient taken as an exact fraction. -/
def BF_spec (ts : TimeSchedule) : Int :=
  ⌈(100 : ℚ) * ((((ts.proc_array.map List.length).foldl max 0 * ts.proc_array.length : Nat) : ℚ)
    / (((ts.proc_array.map List.length).sum : Nat) : ℚ) - 1)⌉

/-- The edges of `chain_sched`: `2 → 0` and `0 → 1`. -/
def chain_edges : List (Task × Task) :=
  [(2, 0), (0, 1)]

/-- The state after `add_task(chain_sched, 0, 0)` on two idle processors. -/
def first_commit_state : TimeSchedule :=
  (add_task chain_sched 0 0 (TimeSchedule.init 2)).getD (TimeSchedule.init 2)

/-- The state after `add_task(tri_sched, 0, 0)` on one idle processor. -/
def tri_first_state : TimeSchedule :=
  (add_task tri_sched 0 0 (TimeSchedule.init 1)).getD (TimeSchedule.init 1)

/-- The state after tasks `0` and `1` of `tri_sched` are committed, in this
order, on the only processor: its timeline holds `{0, 1, 2}` and `{1, 2, 3}`. -/
def two_entry_state : TimeSchedule :=
  (add_task tri_sched 1 0 tri_first_state).getD (TimeSchedule.init 1)

/-! ## The map and the two `std` algorithms -/

theorem map_index_fst (m : Task → Option Proc) (k : Task) :
    (map_index m k).1 = map_value m k := by
  unfold map_index map_value
  cases h : m k <;> simp

theorem map_value_map_index (m : Task → Option Proc) (k j : Task) :
    map_value (map_index m k).2 j = map_value m j := by
  unfold map_index map_value
  cases h : m k with
  | some v => simp
  | none =>
    by_cases hj : j = k
    · subst hj; simp [h]
    · simp [Function.update_noteq hj]

theorem map_index_isSome (m : Task → Option Proc) (k j : Task) :
    ((map_index m k).2 j).isSome = ((m j).isSome || decide (j = k)) := by
  unfold map_index
  cases h : m k with
  | some v =>
    by_cases hj : j = k
    · subst hj; simp [h]
    · simp [hj]
  | none =>
    by_cases hj : j = k
    · subst hj; simp
    · simp [Function.update_noteq hj, hj]

theorem foldl_max_key {α : Type} (key : α → Int) (xs : List α) (x : α) :
    (xs.foldl (fun largest y => if decide (key largest < key y) then y else largest) x = x ∨
      xs.foldl (fun largest y => if decide (key largest < key y) then y else largest) x ∈ xs) ∧
    key x ≤ key (xs.foldl (fun largest y => if decide (key largest < key y) then y else largest) x) ∧
    ∀ y ∈ xs,
      key y ≤ key (xs.foldl (fun largest y => if decide (key largest < key y) then y else largest) x) := by
  induction xs generalizing x with
  | nil => simp
  | cons a rest ih =>
    simp only [List.foldl_cons, List.mem_cons]
    by_cases hlt : key x < key a
    · simp only [hlt, decide_True, if_true]
      obtain ⟨h1, h2, h3⟩ := ih a
      refine ⟨?_, by omega, ?_⟩
      · rcases h1 with h | h
        · exact Or.inr (Or.inl h)
        · exact Or.inr (Or.inr h)
      · intro y hy
        rcases hy with rfl | hy
        · exact h2
        · exact h3 y hy
    · simp only [hlt, decide_False]
      obtain ⟨h1, h2, h3⟩ := ih x
      refine ⟨?_, h2, ?_⟩
      · rcases h1 with h | h
        · exact Or.inl h
        · exact Or.inr (Or.inr h)
      · intro y hy
        rcases hy with rfl | hy
        · simp only [Bool.false_eq_true, if_false] at h2 ⊢
          omega
        · exact h3 y hy

theorem max_element_eq_none {α : Type} (comp : α → α → Bool) (l : List α) :
    max_element comp l = none ↔ l = [] := by
  cases l <;> simp [max_element]

theorem max_element_key {α : Type} (key : α → Int) (l : List α) (e : α)
    (h : max_element (fun a b => decide (key a < key b)) l = some e) :
    e ∈ l ∧ ∀ y ∈ l, key y ≤ key e := by
  cases l with
  | nil => simp [max_element] at h
  | cons x xs =>
    simp only [max_element, Option.some.injEq] at h
    obtain ⟨h1, h2, h3⟩ := foldl_max_key key xs x
    rw [h] at h1 h2 h3
    refine ⟨?_, ?_⟩
    · rcases h1 with h1 | h1
      · simp [h1]
      · exact List.mem_cons_of_mem _ h1
    · intro y hy
      rcases List.mem_cons.mp hy with rfl | hy
      · exact h2
      · exact h3 y hy

/-! ## `test_add_task` -/

theorem test_add_task_times_fst (sched : Schedule) (task : Task) (proc : Proc)
    (l : List Task) (fm : Task → Option Proc) (times : List Int) :
    (test_add_task_times sched task proc l fm times).1 =
      times ++ l.map (fun frm =>
        sched.get_task_time proc task + sched.get_tran_time (map_value fm frm) proc) := by
  induction l generalizing fm times with
  | nil => simp [test_add_task_times]
  | cons frm rest ih =>
    simp [test_add_task_times, ih, map_index_fst, map_value_map_index]

theorem touch_nil (fm : Task → Option Proc) : touch fm [] = fm := by
  funext j
  unfold touch
  cases fm j <;> simp

theorem touch_cons (fm : Task → Option Proc) (k : Task) (l : List Task) :
    touch (map_index fm k).2 l = touch fm (k :: l) := by
  funext j
  unfold touch map_index
  cases hk : fm k with
  | some v =>
    cases hj : fm j with
    | some w => simp [hj]
    | none =>
      have hne : j ≠ k := by
        intro h; subst h; simp [hk] at hj
      simp [hj, hne]
  | none =>
    by_cases hjk : j = k
    · subst hjk; simp [hk]
    · simp [Function.update_noteq hjk, hjk]

theorem test_add_task_times_snd (sched : Schedule) (task : Task) (proc : Proc)
    (l : List Task) (fm : Task → Option Proc) (times : List Int) :
    (test_add_task_times sched task proc l fm times).2 = touch fm l := by
  induction l generalizing fm times with
  | nil => simp [test_add_task_times, touch_nil]
  | cons frm rest ih =>
    simp only [test_add_task_times, ih, touch_cons]

theorem map_value_touch (fm : Task → Option Proc) (l : List Task) (j : Task) :
    map_value (touch fm l) j = map_value fm j := by
  unfold map_value touch
  cases fm j with
  | some v => simp
  | none => by_cases h : j ∈ l <;> simp [h]

theorem touch_of_some (fm : Task → Option Proc) (l : List Task) (j : Task) (v : Proc)
    (h : fm j = some v) : touch fm l j = some v := by
  simp [touch, h]

theorem test_add_task_no_edges (sched : Schedule) (task : Task) (proc : Proc)
    (ts : TimeSchedule) (h : sched.get_in_edges task = []) :
    test_add_task sched task proc ts = none := by
  simp [test_add_task, h, test_add_task_times, max_element]

theorem test_add_task_no_proc (sched : Schedule) (task : Task) (proc : Proc)
    (ts : TimeSchedule) (h : ts.proc_array.length ≤ proc) :
    test_add_task sched task proc ts = none := by
  have hnone : ts.proc_array[proc]? = none := List.getElem?_eq_none h
  unfold test_add_task
  simp only [hnone]
  split <;> rfl

theorem test_add_task_eq (sched : Schedule) (task : Task) (proc : Proc) (ts : TimeSchedule)
    (timeline : proc_info) (h1 : sched.get_in_edges task ≠ [])
    (h2 : ts.proc_array[proc]? = some timeline) :
    ∃ x : Int,
      test_add_task sched task proc ts =
        some (x, { ts with fast_mapping := touch ts.fast_mapping (sched.get_in_edges task) }) ∧
      (∀ e ∈ timeline, e.finish ≤ x) ∧
      (∀ d ∈ dep_times sched task proc ts.fast_mapping, d ≤ x) ∧
      (timeline = [] → 0 ≤ x) ∧
      (x ∈ dep_times sched task proc ts.fast_mapping ∨ (timeline = [] ∧ x = 0) ∨
        ∃ e ∈ timeline, x = e.finish) := by
  have htimes : (test_add_task_times sched task proc (sched.get_in_edges task)
      ts.fast_mapping []).1 = dep_times sched task proc ts.fast_mapping := by
    rw [test_add_task_times_fst]; simp [dep_times]
  have hne : dep_times sched task proc ts.fast_mapping ≠ [] := by
    simpa [dep_times] using h1
  cases hd : max_element (fun a b : Int => decide (a < b))
      (dep_times sched task proc ts.fast_mapping) with
  | none => exact absurd ((max_element_eq_none _ _).mp hd) hne
  | some d =>
    obtain ⟨hdmem, hdmax⟩ := max_element_key (fun a : Int => a) _ d hd
    cases hf : max_element (fun a b : PlacedTask => decide (a.finish < b.finish)) timeline with
    | none =>
      have hnil : timeline = [] := (max_element_eq_none _ _).mp hf
      refine ⟨max d 0, ?_, ?_, ?_, ?_, ?_⟩
      · simp [test_add_task, htimes, hd, h2, hf, test_add_task_times_snd]
      · intro e he; simp [hnil] at he
      · intro y hy; exact le_trans (hdmax y hy) (le_max_left _ _)
      · intro _; exact le_max_right _ _
      · rcases le_total d 0 with h | h
        · right; left; exact ⟨hnil, max_eq_right h⟩
        · left; rw [max_eq_left h]; exact hdmem
    | some e =>
      obtain ⟨hemem, hemax⟩ := max_element_key PlacedTask.finish _ e hf
      refine ⟨max d e.finish, ?_, ?_, ?_, ?_, ?_⟩
      · simp [test_add_task, htimes, hd, h2, hf, test_add_task_times_snd]
      · intro y hy; exact le_trans (hemax y hy) (le_max_right _ _)
      · intro y hy; exact le_trans (hdmax y hy) (le_max_left _ _)
      · intro hnil; simp [hnil] at hemem
      · rcases le_total d e.finish with h | h
        · right; right; exact ⟨e, hemem, max_eq_right h⟩
        · left; rw [max_eq_left h]; exact hdmem

/-! ## `add_task` -/

theorem push_back_at_length (l : List proc_info) (p : Proc) (e : PlacedTask) :
    (push_back_at l p e).length = l.length := by
  induction l generalizing p with
  | nil => simp [push_back_at]
  | cons a rest ih =>
    cases p with
    | zero => simp [push_back_at]
    | succ p => simp [push_back_at, ih]

theorem push_back_at_same (l : List proc_info) (p : Proc) (e : PlacedTask)
    (timeline : proc_info) (h : l[p]? = some timeline) :
    (push_back_at l p e)[p]? = some (timeline ++ [e]) := by
  induction l generalizing p with
  | nil => simp at h
  | cons a rest ih =>
    cases p with
    | zero =>
      simp only [List.getElem?_cons_zero, Option.some.injEq] at h
      simp [push_back_at, h]
    | succ p =>
      simp only [List.getElem?_cons_succ] at h
      simpa [push_back_at] using ih p h

theorem push_back_at_other (l : List proc_info) (p q : Proc) (e : PlacedTask) (h : q ≠ p) :
    (push_back_at l p e)[q]? = l[q]? := by
  induction l generalizing p q with
  | nil => simp [push_back_at]
  | cons a rest ih =>
    cases p with
    | zero =>
      cases q with
      | zero => exact absurd rfl h
      | succ q => simp [push_back_at]
    | succ p =>
      cases q with
      | zero => simp [push_back_at]
      | succ q =>
        have hne : q ≠ p := fun hq => h (by rw [hq])
        simpa [push_back_at] using ih p q hne

theorem touch_cons_cons (fm : Task → Option Proc) (k : Task) (l : List Task) :
    touch fm (k :: k :: l) = touch fm (k :: l) := by
  funext j
  unfold touch
  cases fm j <;> simp

theorem add_task_count_eq (sched : Schedule) (proc : Proc) (l : List Task)
    (fm : Task → Option Proc) (tr ind : Nat) :
    add_task_count sched proc l fm tr ind =
      (touch fm l, tr + (crossing proc fm l).length,
        ind + (crossing_indirect sched proc fm l).length) := by
  induction l generalizing fm tr ind with
  | nil => simp [add_task_count, touch_nil, crossing, crossing_indirect]
  | cons frm rest ih =>
    have hval : ∀ g : Task → Option Proc, (∀ j, map_value g j = map_value fm j) →
        crossing proc g rest = crossing proc fm rest ∧
        crossing_indirect sched proc g rest = crossing_indirect sched proc fm rest := by
      intro g hg
      simp [crossing, crossing_indirect, hg]
    have h1 := hval (map_index fm frm).2 (map_value_map_index fm frm)
    have h2 := hval (map_index (map_index fm frm).2 frm).2 (fun j => by
      rw [map_value_map_index, map_value_map_index])
    unfold add_task_count
    simp only [map_index_fst, map_value_map_index]
    by_cases hne : map_value fm frm = proc
    · simp only [hne, ne_eq, not_true_eq_false, if_false]
      rw [ih, touch_cons, h1.1, h1.2]
      simp [crossing, crossing_indirect, hne]
    · simp only [ne_eq, hne, not_false_eq_true, if_true]
      cases hd : sched.is_direct_connection (map_value fm frm) proc
      · simp only [Bool.not_false, if_true]
        rw [ih, touch_cons, touch_cons, touch_cons_cons, h2.1, h2.2]
        simp [crossing, crossing_indirect, hne, hd]
        omega
      · simp only [Bool.not_true, Bool.false_eq_true, if_false]
        rw [ih, touch_cons, touch_cons, touch_cons_cons, h2.1, h2.2]
        simp [crossing, crossing_indirect, hne, hd]
        omega

theorem add_task_eq (sched : Schedule) (task : Task) (proc : Proc) (ts : TimeSchedule)
    (timeline : proc_info) (h1 : sched.get_in_edges task ≠ [])
    (h2 : ts.proc_array[proc]? = some timeline) :
    ∃ (x : Int) (ts0 : TimeSchedule),
      test_add_task sched task proc ts = some (x, ts0) ∧
      (∀ e ∈ timeline, e.finish ≤ x) ∧
      (∀ d ∈ dep_times sched task proc ts.fast_mapping, d ≤ x) ∧
      (timeline = [] → 0 ≤ x) ∧
      add_task sched task proc ts = some
        { proc_array := push_back_at ts.proc_array proc
            ⟨task, x, x + sched.get_task_time proc task⟩
          fast_mapping := touch (Function.update
            (touch ts.fast_mapping (sched.get_in_edges task)) task (some proc))
            (sched.get_in_edges task)
          amount_of_transitions := ts.amount_of_transitions +
            (crossing proc (Function.update
              (touch ts.fast_mapping (sched.get_in_edges task)) task (some proc))
              (sched.get_in_edges task)).length
          amount_of_indirect_transitions := ts.amount_of_indirect_transitions +
            (crossing_indirect sched proc (Function.update
              (touch ts.fast_mapping (sched.get_in_edges task)) task (some proc))
              (sched.get_in_edges task)).length } := by
  obtain ⟨x, hx, hfin, hdep, hnil, -⟩ := test_add_task_eq sched task proc ts timeline h1 h2
  refine ⟨x, _, hx, hfin, hdep, hnil, ?_⟩
  simp [add_task, hx, add_task_count_eq]

theorem add_task_none_of_no_edges (sched : Schedule) (task : Task) (proc : Proc)
    (ts : TimeSchedule) (h : sched.get_in_edges task = []) :
    add_task sched task proc ts = none := by
  simp [add_task, test_add_task_no_edges sched task proc ts h]

theorem add_task_some_inv (sched : Schedule) (task : Task) (proc : Proc)
    (ts ts1 : TimeSchedule) (h : add_task sched task proc ts = some ts1) :
    sched.get_in_edges task ≠ [] ∧ ∃ timeline, ts.proc_array[proc]? = some timeline := by
  constructor
  · intro hnil
    rw [add_task_none_of_no_edges sched task proc ts hnil] at h
    exact Option.noConfusion h
  · cases hp : ts.proc_array[proc]? with
    | some timeline => exact ⟨timeline, rfl⟩
    | none =>
      have hlen : ts.proc_array.length ≤ proc := List.getElem?_eq_none_iff.mp hp
      simp [add_task, test_add_task_no_proc sched task proc ts hlen] at h

/-! ## The timeline invariant -/

theorem state_ok_init (proc_num : Nat) : state_ok (TimeSchedule.init proc_num) := by
  intro proc timeline h
  have hmem : timeline ∈ List.replicate proc_num ([] : proc_info) := List.getElem?_mem h
  have hnil : timeline = [] := (List.mem_replicate.mp hmem).2
  subst hnil
  exact ⟨by simp, List.Pairwise.nil⟩

theorem timeline_ok_concat (timeline : proc_info) (e : PlacedTask)
    (hok : timeline_ok timeline) (hfin : ∀ a ∈ timeline, a.finish ≤ e.start)
    (h0 : timeline = [] → 0 ≤ e.start) (hse : e.start ≤ e.finish) :
    timeline_ok (timeline ++ [e]) := by
  have hstart : 0 ≤ e.start := by
    cases timeline with
    | nil => exact h0 rfl
    | cons a rest =>
      have ha := hok.1 a (List.mem_cons_self _ _)
      have hb := hfin a (List.mem_cons_self _ _)
      omega
  refine ⟨?_, ?_⟩
  · intro a ha
    rcases List.mem_append.mp ha with ha | ha
    · exact hok.1 a ha
    · rw [List.mem_singleton.mp ha]; exact ⟨hstart, hse⟩
  · rw [List.pairwise_append]
    refine ⟨hok.2, List.pairwise_singleton _ _, ?_⟩
    intro a ha b hb
    rw [List.mem_singleton.mp hb]
    exact hfin a ha

theorem add_task_state_ok (sched : Schedule) (task : Task) (proc : Proc)
    (ts ts1 : TimeSchedule) (hok : state_ok ts)
    (hcost : 0 ≤ sched.get_task_time proc task)
    (h : add_task sched task proc ts = some ts1) : state_ok ts1 := by
  obtain ⟨h1, timeline, h2⟩ := add_task_some_inv sched task proc ts ts1 h
  obtain ⟨x, ts0, -, hfin, -, hnil, heq⟩ := add_task_eq sched task proc ts timeline h1 h2
  rw [heq] at h
  have hts1 := (Option.some.inj h).symm
  subst hts1
  intro q tl hq
  by_cases hqp : q = proc
  · subst hqp
    have hsame := push_back_at_same ts.proc_array q
      ⟨task, x, x + sched.get_task_time q task⟩ timeline h2
    simp only at hq
    rw [hsame] at hq
    rw [← Option.some.inj hq]
    refine timeline_ok_concat timeline _ (hok q timeline h2) hfin hnil ?_
    simp only
    omega
  · simp only at hq
    rw [push_back_at_other ts.proc_array proc q _ hqp] at hq
    exact hok q tl hq

theorem add_task_length (sched : Schedule) (task : Task) (proc : Proc)
    (ts ts1 : TimeSchedule) (h : add_task sched task proc ts = some ts1) :
    ts1.proc_array.length = ts.proc_array.length := by
  obtain ⟨h1, timeline, h2⟩ := add_task_some_inv sched task proc ts ts1 h
  obtain ⟨x, ts0, -, -, -, -, heq⟩ := add_task_eq sched task proc ts timeline h1 h2
  rw [heq] at h
  rw [← Option.some.inj h]
  exact push_back_at_length _ _ _

theorem reachable_state_ok (proc_num : Nat) (ts : TimeSchedule)
    (h : Reachable NonNegCosts proc_num ts) :
    state_ok ts ∧ ts.proc_array.length = proc_num := by
  induction h with
  | init => exact ⟨state_ok_init proc_num, by simp [TimeSchedule.init]⟩
  | step sched task proc _ hP hadd ih =>
    exact ⟨add_task_state_ok sched task proc _ _ ih.1 (hP proc task) hadd,
      by rw [add_task_length sched task proc _ _ hadd]; exact ih.2⟩

theorem state_ok_serial (ts : TimeSchedule) (hok : state_ok ts) : serial ts ∧ no_overlap ts := by
  have hno : no_overlap ts := by
    intro proc timeline hp i j a b hij ha hb
    obtain ⟨hi, hai⟩ := List.getElem?_eq_some.mp ha
    obtain ⟨hj, hbj⟩ := List.getElem?_eq_some.mp hb
    have hpw := List.pairwise_iff_getElem.mp (hok proc timeline hp).2 i j hi hj hij
    rw [hai, hbj] at hpw
    exact hpw
  refine ⟨?_, hno⟩
  intro proc timeline hp i a b ha hb
  have h1 := hno proc timeline hp i (i + 1) a b (Nat.lt_succ_self i) ha hb
  have h2 := (hok proc timeline hp).1 a (List.getElem?_mem ha)
  exact ⟨h1, by omega⟩

theorem timeline_ok_last (timeline : proc_info) (b : PlacedTask) (hok : timeline_ok timeline)
    (hlast : timeline.getLast? = some b) : ∀ a ∈ timeline, a.finish ≤ b.finish := by
  obtain ⟨ys, hys⟩ := List.getLast?_eq_some_iff.mp hlast
  subst hys
  intro a ha
  have hb := hok.1 b (by simp)
  rcases List.mem_append.mp ha with ha | ha
  · have := (List.pairwise_append.mp hok.2).2.2 a ha b (by simp)
    omega
  · rw [List.mem_singleton.mp ha]

/-! ## `get_time` -/

theorem backs_eq_none (l : List proc_info) (h : ∃ timeline ∈ l, timeline = []) :
    backs l = none := by
  induction l with
  | nil => simp at h
  | cons a rest ih =>
    obtain ⟨timeline, hmem, hnil⟩ := h
    rcases List.mem_cons.mp hmem with rfl | hmem
    · subst hnil; simp [backs]
    · have := ih ⟨timeline, hmem, hnil⟩
      simp only [backs, this]
      split <;> simp_all

theorem backs_eq_some (l : List proc_info) (es : List PlacedTask) (h : backs l = some es) :
    (∀ e ∈ es, ∃ timeline ∈ l, timeline.getLast? = some e) ∧
    (∀ timeline ∈ l, ∃ e ∈ es, timeline.getLast? = some e) ∧ es.length = l.length := by
  induction l generalizing es with
  | nil =>
    simp only [backs, Option.some.injEq] at h
    subst h
    simp
  | cons a rest ih =>
    cases ha : a.getLast? with
    | none => simp [backs, ha] at h
    | some e =>
      cases hr : backs rest with
      | none => simp [backs, ha, hr] at h
      | some es0 =>
        simp only [backs, ha, hr, Option.some.injEq] at h
        subst h
        obtain ⟨h1, h2, h3⟩ := ih es0 hr
        refine ⟨?_, ?_, by simp [h3]⟩
        · intro y hy
          rcases List.mem_cons.mp hy with rfl | hy
          · exact ⟨a, List.mem_cons_self _ _, ha⟩
          · obtain ⟨timeline, ht, hl⟩ := h1 y hy
            exact ⟨timeline, List.mem_cons_of_mem _ ht, hl⟩
        · intro timeline ht
          rcases List.mem_cons.mp ht with rfl | ht
          · exact ⟨e, List.mem_cons_self _ _, ha⟩
          · obtain ⟨y, hy, hl⟩ := h2 timeline ht
            exact ⟨y, List.mem_cons_of_mem _ hy, hl⟩

theorem backs_isSome (l : List proc_info) (h : ∀ timeline ∈ l, timeline ≠ []) :
    ∃ es, backs l = some es := by
  induction l with
  | nil => exact ⟨[], rfl⟩
  | cons a rest ih =>
    obtain ⟨es, hes⟩ := ih (fun timeline ht => h timeline (List.mem_cons_of_mem _ ht))
    have ha : a ≠ [] := h a (List.mem_cons_self _ _)
    cases hl : a.getLast? with
    | none => exact absurd (List.getLast?_eq_none_iff.mp hl) ha
    | some e => exact ⟨e :: es, by simp [backs, hl, hes]⟩

theorem get_time_eq_none (ts : TimeSchedule)
    (h : ts.proc_array = [] ∨ ∃ timeline ∈ ts.proc_array, timeline = []) :
    get_time ts = none := by
  rcases h with h | h
  · simp [get_time, h, backs, max_element]
  · simp [get_time, backs_eq_none ts.proc_array h]

theorem get_time_eq_some (ts : TimeSchedule) (m : Int) (h : get_time ts = some m) :
    (∀ timeline ∈ ts.proc_array, timeline ≠ []) ∧
    (∃ timeline ∈ ts.proc_array, ∃ b, timeline.getLast? = some b ∧ b.finish = m) ∧
    (∀ timeline ∈ ts.proc_array, ∀ b, timeline.getLast? = some b → b.finish ≤ m) := by
  unfold get_time at h
  cases hb : backs ts.proc_array with
  | none => simp [hb] at h
  | some es =>
    cases hmax : max_element (fun a b : PlacedTask => decide (a.finish < b.finish)) es with
    | none => simp [hb, hmax] at h
    | some e =>
      simp only [hb, hmax, Option.some.injEq] at h
      obtain ⟨h1, h2, -⟩ := backs_eq_some ts.proc_array es hb
      obtain ⟨hemem, hemax⟩ := max_element_key PlacedTask.finish es e hmax
      refine ⟨?_, ?_, ?_⟩
      · intro timeline ht hnil
        obtain ⟨y, -, hy⟩ := h2 timeline ht
        simp [hnil] at hy
      · obtain ⟨timeline, ht, hl⟩ := h1 e hemem
        exact ⟨timeline, ht, e, hl, h⟩
      · intro timeline ht b hl
        obtain ⟨y, hy, hl2⟩ := h2 timeline ht
        rw [hl] at hl2
        rw [Option.some.inj hl2, ← h]
        exact hemax y hy

theorem get_time_isSome (ts : TimeSchedule) (hne : ts.proc_array ≠ [])
    (h : ∀ timeline ∈ ts.proc_array, timeline ≠ []) : ∃ m, get_time ts = some m := by
  obtain ⟨es, hes⟩ := backs_isSome ts.proc_array h
  have hlen := (backs_eq_some ts.proc_array es hes).2.2
  cases hmax : max_element (fun a b : PlacedTask => decide (a.finish < b.finish)) es with
  | none =>
    have hnil := (max_element_eq_none _ _).mp hmax
    rw [hnil] at hlen
    exact absurd (List.length_eq_zero.mp hlen.symm) hne
  | some e => exact ⟨e.finish, by simp [get_time, hes, hmax]⟩

/-! ## `GC2` -/

theorem foldl_min_key {α : Type} (key : α → Int) (xs : List α) (x : α) :
    (xs.foldl (fun smallest y => if decide (key y < key smallest) then y else smallest) x = x ∨
      xs.foldl (fun smallest y => if decide (key y < key smallest) then y else smallest) x ∈ xs) ∧
    key (xs.foldl (fun smallest y => if decide (key y < key smallest) then y else smallest) x)
      ≤ key x ∧
    ∀ y ∈ xs,
      key (xs.foldl (fun smallest y => if decide (key y < key smallest) then y else smallest) x)
        ≤ key y := by
  induction xs generalizing x with
  | nil => simp
  | cons a rest ih =>
    simp only [List.foldl_cons, List.mem_cons]
    by_cases hlt : key a < key x
    · simp only [hlt, decide_True, if_true]
      obtain ⟨h1, h2, h3⟩ := ih a
      refine ⟨?_, by omega, ?_⟩
      · rcases h1 with h | h
        · exact Or.inr (Or.inl h)
        · exact Or.inr (Or.inr h)
      · intro y hy
        rcases hy with rfl | hy
        · exact h2
        · exact h3 y hy
    · simp only [hlt, decide_False]
      obtain ⟨h1, h2, h3⟩ := ih x
      refine ⟨?_, h2, ?_⟩
      · rcases h1 with h | h
        · exact Or.inl h
        · exact Or.inr (Or.inr h)
      · intro y hy
        rcases hy with rfl | hy
        · simp only [Bool.false_eq_true, if_false] at h2 ⊢
          omega
        · exact h3 y hy

theorem min_element_key {α : Type} (key : α → Int) (l : List α) (hne : l ≠ []) :
    ∃ e, min_element (fun a b => decide (key a < key b)) l = some e ∧
      e ∈ l ∧ ∀ y ∈ l, key e ≤ key y := by
  cases l with
  | nil => exact absurd rfl hne
  | cons x xs =>
    obtain ⟨h1, h2, h3⟩ := foldl_min_key key xs x
    refine ⟨_, rfl, ?_, ?_⟩
    · rcases h1 with h1 | h1
      · rw [h1]; exact List.mem_cons_self _ _
      · exact List.mem_cons_of_mem _ h1
    · intro y hy
      rcases List.mem_cons.mp hy with rfl | hy
      · exact h2
      · exact h3 y hy

theorem test_add_task_congr (sched : Schedule) (task : Task) (proc : Proc)
    (ts ts0 : TimeSchedule) (hpa : ts.proc_array = ts0.proc_array)
    (hmv : ∀ j, map_value ts.fast_mapping j = map_value ts0.fast_mapping j) :
    (test_add_task sched task proc ts).map Prod.fst =
      (test_add_task sched task proc ts0).map Prod.fst := by
  unfold test_add_task
  simp only [test_add_task_times_fst, hpa, hmv]
  cases max_element (fun a b : Int => decide (a < b))
      ([] ++ (sched.get_in_edges task).map (fun frm =>
        sched.get_task_time proc task +
          sched.get_tran_time (map_value ts0.fast_mapping frm) proc)) with
  | none => rfl
  | some d =>
    cases ts0.proc_array[proc]? with
    | none => rfl
    | some stuff => rfl

theorem test_add_task_state (sched : Schedule) (task : Task) (proc : Proc)
    (ts ts1 : TimeSchedule) (x : Int) (h : test_add_task sched task proc ts = some (x, ts1)) :
    ts1.proc_array = ts.proc_array ∧
    ts1.fast_mapping = touch ts.fast_mapping (sched.get_in_edges task) ∧
    ts1.amount_of_transitions = ts.amount_of_transitions ∧
    ts1.amount_of_indirect_transitions = ts.amount_of_indirect_transitions := by
  have hne : sched.get_in_edges task ≠ [] := by
    intro hnil
    rw [test_add_task_no_edges sched task proc ts hnil] at h
    exact Option.noConfusion h
  cases hp : ts.proc_array[proc]? with
  | none =>
    rw [test_add_task_no_proc sched task proc ts (List.getElem?_eq_none_iff.mp hp)] at h
    exact Option.noConfusion h
  | some timeline =>
    obtain ⟨y, hy, -⟩ := test_add_task_eq sched task proc ts timeline hne hp
    rw [hy] at h
    have h2 := (Prod.mk.inj (Option.some.inj h)).2
    subst h2
    exact ⟨rfl, rfl, rfl, rfl⟩

theorem GC2_times_spec (sched : Schedule) (task : Task) (ts0 : TimeSchedule)
    (h1 : sched.get_in_edges task ≠ []) (ps : List Proc) :
    ∀ (ts : TimeSchedule) (times : List (Proc × Int)),
      (∀ i ∈ ps, i < ts0.proc_array.length) →
      ts.proc_array = ts0.proc_array →
      (∀ j, map_value ts.fast_mapping j = map_value ts0.fast_mapping j) →
      ∃ vals ts1, GC2_times sched task ps ts times = some (times ++ vals, ts1) ∧
        vals.map Prod.fst = ps ∧
        ∀ pr ∈ vals, (test_add_task sched task pr.1 ts0).map Prod.fst = some pr.2 := by
  induction ps with
  | nil =>
    intro ts times _ _ _
    exact ⟨[], ts, by simp [GC2_times], rfl, by simp⟩
  | cons i rest ih =>
    intro ts times hps hpa hmv
    have hi : i < ts.proc_array.length := by
      rw [hpa]; exact hps i (List.mem_cons_self _ _)
    obtain ⟨x, hx, -⟩ := test_add_task_eq sched task i ts ts.proc_array[i] h1
      (List.getElem?_eq_getElem hi)
    have hval : (test_add_task sched task i ts0).map Prod.fst = some x := by
      rw [← test_add_task_congr sched task i ts ts0 hpa hmv, hx]; rfl
    obtain ⟨vals, ts1, hrec, hfst, hvals⟩ := ih
      { ts with fast_mapping := touch ts.fast_mapping (sched.get_in_edges task) }
      (times ++ [(i, x)])
      (fun k hk => hps k (List.mem_cons_of_mem _ hk)) hpa
      (fun j => by simp only [map_value_touch]; exact hmv j)
    refine ⟨(i, x) :: vals, ts1, ?_, by simp [hfst], ?_⟩
    · simp only [GC2_times, hx]
      rw [hrec]
      simp
    · intro pr hpr
      rcases List.mem_cons.mp hpr with rfl | hpr
      · exact hval
      · exact hvals pr hpr

theorem touch_mem (fm : Task → Option Proc) (l : List Task) (frm : Task) (h : frm ∈ l) :
    touch fm l frm = some (map_value fm frm) := by
  unfold touch map_value
  cases fm frm <;> simp [h]

theorem touch_update_other (fm : Task → Option Proc) (l : List Task) (task j : Task)
    (proc : Proc) (h : j ≠ task) :
    touch (Function.update (touch fm l) task (some proc)) l j = touch fm l j := by
  unfold touch
  rw [Function.update_noteq h]
  cases hj : fm j with
  | some v => rfl
  | none => by_cases hm : j ∈ l <;> simp [hm]

theorem add_task_returns_iff (sched : Schedule) (task : Task) (proc : Proc)
    (ts : TimeSchedule) :
    (∃ ts1, add_task sched task proc ts = some ts1) ↔
      (sched.get_in_edges task ≠ [] ∧ proc < ts.proc_array.length) := by
  constructor
  · rintro ⟨ts1, h⟩
    obtain ⟨h1, timeline, h2⟩ := add_task_some_inv sched task proc ts ts1 h
    exact ⟨h1, (List.getElem?_eq_some.mp h2).1⟩
  · rintro ⟨h1, h2⟩
    obtain ⟨x, ts0, -, -, -, -, heq⟩ := add_task_eq sched task proc ts ts.proc_array[proc]
      h1 (List.getElem?_eq_getElem h2)
    exact ⟨_, heq⟩

theorem first_commit_has_uncommitted_source (sched : Schedule) (task : Task) (proc : Proc)
    (proc_num : Nat) (ts1 : TimeSchedule)
    (h : add_task sched task proc (TimeSchedule.init proc_num) = some ts1) :
    ∃ frm ∈ sched.get_in_edges task, (TimeSchedule.init proc_num).fast_mapping frm = none := by
  obtain ⟨hne, -⟩ := add_task_some_inv sched task proc _ ts1 h
  cases hl : sched.get_in_edges task with
  | nil => exact absurd hl hne
  | cons frm rest => exact ⟨frm, List.mem_cons_self _ _, rfl⟩

theorem run_commits_first_task_has_source (sched : Schedule) (task : Task) (proc : Proc)
    (rest : List (Task × Proc)) (proc_num : Nat) (ts : TimeSchedule)
    (h : run_commits sched ((task, proc) :: rest) (TimeSchedule.init proc_num) = some ts) :
    ∃ frm ∈ sched.get_in_edges task, (TimeSchedule.init proc_num).fast_mapping frm = none := by
  simp only [run_commits] at h
  cases hadd : add_task sched task proc (TimeSchedule.init proc_num) with
  | none => rw [hadd] at h; exact Option.noConfusion h
  | some ts1 => exact first_commit_has_uncommitted_source sched task proc proc_num ts1 hadd

theorem Reachable.mono {P Q : Schedule → Prop} (hPQ : ∀ sched, P sched → Q sched)
    (proc_num : Nat) (ts : TimeSchedule) (h : Reachable P proc_num ts) :
    Reachable Q proc_num ts := by
  induction h with
  | init => exact Reachable.init
  | step sched task proc _ hP hadd ih => exact Reachable.step sched task proc ih (hPQ _ hP) hadd

theorem reachable_costs (cost : Proc → Task → Int) (proc_num : Nat) (ts : TimeSchedule)
    (h : Reachable (fun sc => NonNegCosts sc ∧ sc.get_task_time = cost) proc_num ts) :
    ∀ (proc : Proc) (timeline : proc_info) (e : PlacedTask),
      ts.proc_array[proc]? = some timeline → e ∈ timeline →
      e.finish = e.start + cost proc e.task := by
  induction h with
  | init =>
    intro proc timeline e hp he
    have hmem : timeline ∈ List.replicate proc_num ([] : proc_info) := List.getElem?_mem hp
    rw [(List.mem_replicate.mp hmem).2] at he
    simp at he
  | @step ts0 ts1 sched task proc _ hP hadd ih =>
    obtain ⟨h1, timeline0, h2⟩ := add_task_some_inv sched task proc ts0 ts1 hadd
    obtain ⟨x, tsx, -, -, -, -, heq⟩ := add_task_eq sched task proc ts0 timeline0 h1 h2
    rw [heq] at hadd
    have hts1 := (Option.some.inj hadd).symm
    subst hts1
    intro q timeline e hq he
    by_cases hqp : q = proc
    · subst hqp
      simp only at hq
      rw [push_back_at_same _ _ _ _ h2] at hq
      rw [← Option.some.inj hq] at he
      rcases List.mem_append.mp he with he | he
      · exact ih q timeline0 e h2 he
      · rw [List.mem_singleton.mp he, ← hP.2]
    · simp only at hq
      rw [push_back_at_other _ _ _ _ hqp] at hq
      exact ih q timeline e hq he

theorem add_task_post (sched : Schedule) (task : Task) (proc : Proc) (ts : TimeSchedule)
    (timeline : proc_info) (hedges : sched.get_in_edges task ≠ [])
    (hproc : ts.proc_array[proc]? = some timeline) :
    ∃ (x : Int) (ts0 ts1 : TimeSchedule),
      test_add_task sched task proc ts = some (x, ts0) ∧
      add_task sched task proc ts = some ts1 ∧
      ts1.proc_array[proc]? =
        some (timeline ++ [⟨task, x, x + sched.get_task_time proc task⟩]) ∧
      ts1.proc_array.length = ts.proc_array.length ∧
      (∀ q, q ≠ proc → ts1.proc_array[q]? = ts.proc_array[q]?) ∧
      ts1.fast_mapping task = some proc ∧
      (∀ j, j ≠ task →
        ts1.fast_mapping j = touch ts.fast_mapping (sched.get_in_edges task) j) ∧
      (∀ j v, j ≠ task → ts.fast_mapping j = some v → ts1.fast_mapping j = some v) ∧
      ts1.amount_of_transitions = ts.amount_of_transitions +
        ((sched.get_in_edges task).filter (mapped_elsewhere ts1.fast_mapping proc)).length ∧
      ts1.amount_of_indirect_transitions = ts.amount_of_indirect_transitions +
        ((sched.get_in_edges task).filter
          (mapped_indirect sched ts1.fast_mapping proc)).length := by
  obtain ⟨x, ts0, htest, -, -, -, heq⟩ := add_task_eq sched task proc ts timeline hedges hproc
  have hother : ∀ j, j ≠ task →
      touch (Function.update (touch ts.fast_mapping (sched.get_in_edges task)) task
        (some proc)) (sched.get_in_edges task) j =
      touch ts.fast_mapping (sched.get_in_edges task) j :=
    fun j hj => touch_update_other ts.fast_mapping _ task j proc hj
  refine ⟨x, ts0, _, htest, heq, push_back_at_same _ _ _ _ hproc, push_back_at_length _ _ _,
    fun q hq => push_back_at_other _ _ _ _ hq, ?_, hother, ?_, ?_, ?_⟩
  · exact touch_of_some _ _ _ _ (by simp)
  · intro j v hj hv
    simp only
    rw [hother j hj]
    exact touch_of_some _ _ _ _ hv
  · simp only [crossing]
    congr 2
    apply List.filter_congr
    intro frm hfrm
    simp only [mapped_elsewhere, touch_mem _ _ _ hfrm]
  · simp only [crossing_indirect, crossing, List.filter_filter]
    congr 2
    apply List.filter_congr
    intro frm hfrm
    simp only [mapped_indirect, touch_mem _ _ _ hfrm, Bool.and_comm]

theorem get_time_after_commit (sched : Schedule) (task : Task) (proc : Proc) (ts : TimeSchedule)
    (m : Int) (hm : get_time ts = some m) (hcost : NonNegCosts sched)
    (hedges : sched.get_in_edges task ≠ []) (hproc : proc < ts.proc_array.length) :
    ∃ ts1 m1, add_task sched task proc ts = some ts1 ∧ get_time ts1 = some m1 ∧ m ≤ m1 := by
  obtain ⟨hbusy, ⟨tl0, ht0, b0, hb0, hbm⟩, -⟩ := get_time_eq_some ts m hm
  have hget : ts.proc_array[proc]? = some ts.proc_array[proc] :=
    List.getElem?_eq_getElem hproc
  obtain ⟨x, ts0, -, hfin, -, -, heq⟩ := add_task_eq sched task proc ts ts.proc_array[proc]
    hedges hget
  have hsame := push_back_at_same ts.proc_array proc
    ⟨task, x, x + sched.get_task_time proc task⟩ ts.proc_array[proc] hget
  have hbusy1 : ∀ timeline ∈ push_back_at ts.proc_array proc
      ⟨task, x, x + sched.get_task_time proc task⟩, timeline ≠ [] := by
    intro timeline ht
    obtain ⟨q, hq⟩ := List.getElem?_of_mem ht
    by_cases hqp : q = proc
    · subst hqp
      rw [hsame] at hq
      rw [← Option.some.inj hq]
      simp
    · rw [push_back_at_other _ _ _ _ hqp] at hq
      exact hbusy timeline (List.getElem?_mem hq)
  have hne1 : push_back_at ts.proc_array proc
      ⟨task, x, x + sched.get_task_time proc task⟩ ≠ [] := by
    intro hnil
    have hlen := push_back_at_length ts.proc_array proc
      ⟨task, x, x + sched.get_task_time proc task⟩
    rw [hnil] at hlen
    have h0 : ts.proc_array.length = 0 := hlen.symm
    rw [h0] at hproc
    exact Nat.not_lt_zero _ hproc
  obtain ⟨m1, hm1⟩ := get_time_isSome
    { proc_array := push_back_at ts.proc_array proc
        ⟨task, x, x + sched.get_task_time proc task⟩
      fast_mapping := touch (Function.update
        (touch ts.fast_mapping (sched.get_in_edges task)) task (some proc))
        (sched.get_in_edges task)
      amount_of_transitions := ts.amount_of_transitions +
        (crossing proc (Function.update
          (touch ts.fast_mapping (sched.get_in_edges task)) task (some proc))
          (sched.get_in_edges task)).length
      amount_of_indirect_transitions := ts.amount_of_indirect_transitions +
        (crossing_indirect sched proc (Function.update
          (touch ts.fast_mapping (sched.get_in_edges task)) task (some proc))
          (sched.get_in_edges task)).length } hne1 hbusy1
  obtain ⟨-, -, hup1⟩ := get_time_eq_some _ m1 hm1
  refine ⟨_, m1, heq, hm1, ?_⟩
  obtain ⟨q0, hq0⟩ := List.getElem?_of_mem ht0
  by_cases hqp : q0 = proc
  · subst hqp
    rw [hget] at hq0
    have htl : ts.proc_array[q0] = tl0 := Option.some.inj hq0
    have h1 := hfin b0 (by rw [htl]; exact List.mem_of_getLast?_eq_some hb0)
    have h2 := hup1 _ (List.getElem?_mem hsame)
      ⟨task, x, x + sched.get_task_time q0 task⟩ (List.getLast?_concat _)
    have h3 := hcost q0 task
    simp only at h2
    omega
  · have hmem : tl0 ∈ push_back_at ts.proc_array proc
        ⟨task, x, x + sched.get_task_time proc task⟩ := by
      apply List.getElem?_mem (n := q0)
      rw [push_back_at_other _ _ _ _ hqp]
      exact hq0
    have h2 := hup1 tl0 hmem b0 hb0
    omega

/-! ## The claims -/

/-- A committed successor can start before its committed predecessor has
finished.  On two idle processors, committing task `0` of `chain_sched` on
processor `0` and then its successor `1` on processor `1` records `0` as
`[10, 20)` and `1` as `[1, 2)`.  (Task `0` itself has the source `2`, which
is never committed.) -/
theorem precedence_violated_by_add_task :
    ∃ ts1 ts2 : TimeSchedule,
      add_task chain_sched 0 0 (TimeSchedule.init 2) = some ts1 ∧
      add_task chain_sched 1 1 ts1 = some ts2 ∧
      chain_sched.get_in_edges 1 = [0] ∧
      ts2.fast_mapping 0 = some 0 ∧ ts2.fast_mapping 1 = some 1 ∧
      placed ts2 0 = some ⟨0, 10, 20⟩ ∧ placed ts2 1 = some ⟨1, 1, 2⟩ ∧
      ¬ ((1 : Int) ≥ 20 + chain_sched.get_tran_time 0 1) := by
  refine ⟨_, _, rfl, rfl, rfl, rfl, rfl, rfl, rfl, by decide⟩

/-- Claim C2 (`test_add_task` returns `max(dataReady, procFree)` with
`dataReady` built from the predecessors' finish times), evaluated on the code.
After task `0` is committed on processor `0` as `[10, 20)`, its successor `1`
(single incoming edge, predecessor committed) is evaluated on the idle
processor `1`: the code returns `1 = get_task_time(1, 1) + get_tran_time(0, 1)`,
the formula of the specification gives `20 = finish(0) + get_tran_time(0, 1)`. -/
theorem test_add_task_ignores_predecessor_finish :
    ∃ ts1 : TimeSchedule,
      add_task chain_sched 0 0 (TimeSchedule.init 2) = some ts1 ∧
      chain_sched.get_in_edges 1 = [0] ∧
      placed ts1 0 = some ⟨0, 10, 20⟩ ∧
      (test_add_task chain_sched 1 1 ts1).map Prod.fst = some 1 ∧
      evaluateStart_spec chain_sched 1 1 ts1 = some 20 := by
  exact ⟨_, rfl, rfl, rfl, rfl, rfl⟩

/-- Claim C3 as stated fails: for `skew_sched` on two idle processors `GC2`
returns processor `0`, where the task would start at `5` and finish at `10`,
although on processor `1` it would start at `6` and finish at `7`. -/
theorem GC2_not_min_finish :
    (GC2 skew_sched 1 (TimeSchedule.init 2)).map Prod.fst = some 0 ∧
    (test_add_task skew_sched 1 0 (TimeSchedule.init 2)).map Prod.fst = some 5 ∧
    (test_add_task skew_sched 1 1 (TimeSchedule.init 2)).map Prod.fst = some 6 ∧
    ¬ (5 + skew_sched.get_task_time 0 1 ≤ 6 + skew_sched.get_task_time 1 1) := by
  exact ⟨rfl, rfl, rfl, by decide⟩

/-- Claim C3, amended: with at least one processor and a task with at least
one incoming edge, `GC2` returns a processor `p` of the schedule that
minimizes the value of `test_add_task` on the pre-state (the start time, not
the start time plus the execution cost):
`test_add_task(sched, task, p) ≤ test_add_task(sched, task, q)` for every
processor `q`. -/
theorem GC2_minimizes_start (sched : Schedule) (task : Task) (ts : TimeSchedule)
    (hproc : 0 < ts.proc_array.length) (hedges : sched.get_in_edges task ≠ []) :
    ∃ (p : Proc) (ts1 : TimeSchedule) (xp : Int),
      GC2 sched task ts = some (p, ts1) ∧ p < ts.proc_array.length ∧
      (test_add_task sched task p ts).map Prod.fst = some xp ∧
      ∀ q, q < ts.proc_array.length →
        ∃ xq, (test_add_task sched task q ts).map Prod.fst = some xq ∧ xp ≤ xq := by
  obtain ⟨vals, ts1, hrun, hfst, hvals⟩ := GC2_times_spec sched task ts hedges
    (List.range ts.proc_array.length) ts []
    (fun i hi => List.mem_range.mp hi) rfl (fun _ => rfl)
  have hne : vals ≠ [] := by
    intro hnil
    rw [hnil] at hfst
    have hlen := congrArg List.length hfst
    simp at hlen
    omega
  obtain ⟨best, hbest, hmem, hmin⟩ := min_element_key (fun pr : Proc × Int => pr.2) vals hne
  have hp : best.1 ∈ List.range ts.proc_array.length := by
    rw [← hfst]; exact List.mem_map_of_mem _ hmem
  refine ⟨best.1, ts1, best.2, ?_, List.mem_range.mp hp, hvals best hmem, ?_⟩
  · simp only [GC2, hrun, List.nil_append, hbest]
  · intro q hq
    have hqmem : q ∈ vals.map Prod.fst := by
      rw [hfst]; exact List.mem_range.mpr hq
    obtain ⟨pr, hpr, hprq⟩ := List.mem_map.mp hqmem
    refine ⟨pr.2, ?_, hmin pr hpr⟩
    rw [← hprq]
    exact hvals pr hpr

/-- Witness of `GC2_minimizes_start`: `skew_sched`, task `1`, two idle processors. -/
theorem GC2_minimizes_start_witness :
    0 < (TimeSchedule.init 2).proc_array.length ∧ skew_sched.get_in_edges 1 ≠ [] ∧
    ∃ (p : Proc) (ts1 : TimeSchedule) (xp : Int),
      GC2 skew_sched 1 (TimeSchedule.init 2) = some (p, ts1) ∧
      p < (TimeSchedule.init 2).proc_array.length ∧
      (test_add_task skew_sched 1 p (TimeSchedule.init 2)).map Prod.fst = some xp ∧
      ∀ q, q < (TimeSchedule.init 2).proc_array.length →
        ∃ xq, (test_add_task skew_sched 1 q (TimeSchedule.init 2)).map Prod.fst = some xq ∧
          xp ≤ xq :=
  ⟨by decide, by decide,
    GC2_minimizes_start skew_sched 1 (TimeSchedule.init 2) (by decide) (by decide)⟩

theorem chain_sched_nonneg : NonNegCosts chain_sched := by
  intro proc task
  simp only [chain_sched]
  split <;> decide

/-- Claim C4: the serial-timeline predicate (consecutive entries satisfy
`timeline[i].finish ≤ timeline[i+1].start`, starts non-decreasing in commit
order) holds in the empty `TimeSchedule`, holds in every state reached from it
by commits with non-negative execution costs, and every further `add_task` for
a task with at least one incoming edge on a processor of the schedule returns
a state in which it holds again; in all these states no two intervals of one
processor overlap. -/
theorem timelines_stay_serial (proc_num : Nat) :
    serial (TimeSchedule.init proc_num) ∧ no_overlap (TimeSchedule.init proc_num) ∧
    ∀ ts, Reachable NonNegCosts proc_num ts →
      serial ts ∧ no_overlap ts ∧
      ∀ (sched : Schedule) (task : Task) (proc : Proc),
        NonNegCosts sched → sched.get_in_edges task ≠ [] → proc < proc_num →
        ∃ ts1, add_task sched task proc ts = some ts1 ∧ serial ts1 ∧ no_overlap ts1 := by
  have h0 := state_ok_serial _ (state_ok_init proc_num)
  refine ⟨h0.1, h0.2, ?_⟩
  intro ts hr
  obtain ⟨hok, hlen⟩ := reachable_state_ok proc_num ts hr
  have hs := state_ok_serial ts hok
  refine ⟨hs.1, hs.2, ?_⟩
  intro sched task proc hcost hedges hproc
  have hp : proc < ts.proc_array.length := by rw [hlen]; exact hproc
  obtain ⟨x, ts0, -, -, -, -, heq⟩ := add_task_eq sched task proc ts ts.proc_array[proc]
    hedges (List.getElem?_eq_getElem hp)
  have hok1 := add_task_state_ok sched task proc ts _ hok (hcost proc task) heq
  have hs1 := state_ok_serial _ hok1
  exact ⟨_, heq, hs1.1, hs1.2⟩

theorem tri_sched_nonneg : NonNegCosts tri_sched := by
  intro proc task
  simp only [tri_sched]
  decide

/-- Witness of `timelines_stay_serial`: on one processor, tasks `0` and `1`
of `tri_sched` are committed, so the timeline holds the two entries `[1, 2)`
and `[2, 3)`, for which the predicate says `2 ≤ 2` and `1 ≤ 2`; the commit
of task `2` then appends `[3, 4)` and the predicate holds for the three
entries. -/
theorem timelines_stay_serial_witness :
    add_task tri_sched 0 0 (TimeSchedule.init 1) = some tri_first_state ∧
    add_task tri_sched 1 0 tri_first_state = some two_entry_state ∧
    two_entry_state.proc_array = [[⟨0, 1, 2⟩, ⟨1, 2, 3⟩]] ∧
    Reachable NonNegCosts 1 two_entry_state ∧ NonNegCosts tri_sched ∧
    tri_sched.get_in_edges 2 ≠ [] ∧ (0 : Proc) < 1 ∧
    serial two_entry_state ∧ no_overlap two_entry_state ∧
    (add_task tri_sched 2 0 two_entry_state).map TimeSchedule.proc_array =
      some [[⟨0, 1, 2⟩, ⟨1, 2, 3⟩, ⟨2, 3, 4⟩]] ∧
    ∃ ts1, add_task tri_sched 2 0 two_entry_state = some ts1 ∧
      serial ts1 ∧ no_overlap ts1 := by
  have hr : Reachable NonNegCosts 1 two_entry_state :=
    Reachable.step tri_sched 1 0
      (Reachable.step tri_sched 0 0 Reachable.init tri_sched_nonneg
        (rfl : add_task tri_sched 0 0 (TimeSchedule.init 1) = some tri_first_state))
      tri_sched_nonneg
      (rfl : add_task tri_sched 1 0 tri_first_state = some two_entry_state)
  have h := (timelines_stay_serial 1).2.2 two_entry_state hr
  exact ⟨rfl, rfl, rfl, hr, tri_sched_nonneg, by decide, by decide, h.1, h.2.1, rfl,
    h.2.2 tri_sched 2 0 tri_sched_nonneg (by decide) (by decide)⟩

/-- Claim C5: in every state reached from the empty `TimeSchedule` by commits
with non-negative execution costs (cost matrix `cost`), every recorded entry
on a processor `proc` satisfies `start ≥ 0` and
`finish = start + get_task_time(proc, task)`.  A further `add_task` returns
exactly for a task with an incoming edge on a processor of the schedule, and
the entry it then appends to the timeline of `proc` carries the task and
satisfies the same two facts. -/
theorem placed_task_start_finish (cost : Proc → Task → Int) (proc_num : Nat)
    (ts : TimeSchedule)
    (hr : Reachable (fun sc => NonNegCosts sc ∧ sc.get_task_time = cost) proc_num ts) :
    (∀ (proc : Proc) (timeline : proc_info) (e : PlacedTask),
      ts.proc_array[proc]? = some timeline → e ∈ timeline →
      0 ≤ e.start ∧ e.finish = e.start + cost proc e.task) ∧
    ∀ (sched : Schedule) (task : Task) (proc : Proc), NonNegCosts sched →
      ((∃ ts1, add_task sched task proc ts = some ts1) ↔
        (sched.get_in_edges task ≠ [] ∧ proc < proc_num)) ∧
      ∀ ts1, add_task sched task proc ts = some ts1 →
        ∃ (timeline : proc_info) (e : PlacedTask),
          ts.proc_array[proc]? = some timeline ∧
          ts1.proc_array[proc]? = some (timeline ++ [e]) ∧
          e.task = task ∧ 0 ≤ e.start ∧
          e.finish = e.start + sched.get_task_time proc task := by
  have hr0 : Reachable NonNegCosts proc_num ts := Reachable.mono (fun _ h => h.1) proc_num ts hr
  obtain ⟨hok, hlen⟩ := reachable_state_ok proc_num ts hr0
  refine ⟨fun proc timeline e hp he =>
    ⟨((hok proc timeline hp).1 e he).1, reachable_costs cost proc_num ts hr proc timeline e hp he⟩,
    ?_⟩
  intro sched task proc hcost
  refine ⟨by rw [← hlen]; exact add_task_returns_iff sched task proc ts, ?_⟩
  intro ts1 hadd
  obtain ⟨h1, timeline, h2⟩ := add_task_some_inv sched task proc ts ts1 hadd
  obtain ⟨x, ts0, -, -, -, -, heq⟩ := add_task_eq sched task proc ts timeline h1 h2
  have hok1 := add_task_state_ok sched task proc ts ts1 hok (hcost proc task) hadd
  rw [heq] at hadd
  have hts1 := (Option.some.inj hadd).symm
  subst hts1
  have hsame := push_back_at_same ts.proc_array proc
    ⟨task, x, x + sched.get_task_time proc task⟩ timeline h2
  exact ⟨timeline, ⟨task, x, x + sched.get_task_time proc task⟩, h2, hsame, rfl,
    ((hok1 proc _ hsame).1 _ (by simp)).1, rfl⟩

/-- Witness of `placed_task_start_finish`: the state after task `0` of
`chain_sched` is committed on processor `0` of two. -/
theorem placed_task_start_finish_witness :
    ∃ ts : TimeSchedule, add_task chain_sched 0 0 (TimeSchedule.init 2) = some ts ∧
      ts.proc_array = [[⟨0, 10, 20⟩], []] ∧
      Reachable (fun sc => NonNegCosts sc ∧ sc.get_task_time = chain_sched.get_task_time)
        2 ts ∧
      ((∀ (proc : Proc) (timeline : proc_info) (e : PlacedTask),
        ts.proc_array[proc]? = some timeline → e ∈ timeline →
        0 ≤ e.start ∧ e.finish = e.start + chain_sched.get_task_time proc e.task) ∧
      ∀ (sched : Schedule) (task : Task) (proc : Proc), NonNegCosts sched →
        ((∃ ts1, add_task sched task proc ts = some ts1) ↔
          (sched.get_in_edges task ≠ [] ∧ proc < 2)) ∧
        ∀ ts1, add_task sched task proc ts = some ts1 →
          ∃ (timeline : proc_info) (e : PlacedTask),
            ts.proc_array[proc]? = some timeline ∧
            ts1.proc_array[proc]? = some (timeline ++ [e]) ∧
            e.task = task ∧ 0 ≤ e.start ∧
            e.finish = e.start + sched.get_task_time proc task) :=
  ⟨_, rfl, rfl,
    Reachable.step chain_sched 0 0 Reachable.init ⟨chain_sched_nonneg, rfl⟩ rfl,
    placed_task_start_finish chain_sched.get_task_time 2 _
      (Reachable.step chain_sched 0 0 Reachable.init ⟨chain_sched_nonneg, rfl⟩ rfl)⟩

/-- The effect of a call of `add_task` that returns, with the transitions
counted in the mapping as the call leaves it.  `add_task` returns exactly for
a task with an incoming edge on a processor of the schedule.  It then appends
exactly the entry `{task, x, x + get_task_time(proc, task)}`, `x` being the
value of `test_add_task` on the pre-state, to the timeline of `proc` and
leaves the other timelines alone; it records `task -> proc` in the mapping
(every other key keeps its entry, and a source that had none holds the
inserted default `0`); `amount_of_transitions` grows by the number of
incoming edges whose source reads, in the mapping after the call, a processor
different from `proc`, and `amount_of_indirect_transitions` by the number of
those whose processor has no direct connection to `proc`. -/
theorem add_task_effect (sched : Schedule) (task : Task) (proc : Proc) (ts : TimeSchedule) :
    ((∃ ts1, add_task sched task proc ts = some ts1) ↔
      (sched.get_in_edges task ≠ [] ∧ proc < ts.proc_array.length)) ∧
    ∀ ts1, add_task sched task proc ts = some ts1 →
      ∃ (x : Int) (ts0 : TimeSchedule) (timeline : proc_info),
        test_add_task sched task proc ts = some (x, ts0) ∧
        ts.proc_array[proc]? = some timeline ∧
        ts1.proc_array[proc]? =
          some (timeline ++ [⟨task, x, x + sched.get_task_time proc task⟩]) ∧
        ts1.proc_array.length = ts.proc_array.length ∧
        (∀ q, q ≠ proc → ts1.proc_array[q]? = ts.proc_array[q]?) ∧
        ts1.fast_mapping task = some proc ∧
        (∀ j, j ≠ task →
          ts1.fast_mapping j = touch ts.fast_mapping (sched.get_in_edges task) j) ∧
        (∀ j v, j ≠ task → ts.fast_mapping j = some v → ts1.fast_mapping j = some v) ∧
        ts1.amount_of_transitions = ts.amount_of_transitions +
          ((sched.get_in_edges task).filter (mapped_elsewhere ts1.fast_mapping proc)).length ∧
        ts1.amount_of_indirect_transitions = ts.amount_of_indirect_transitions +
          ((sched.get_in_edges task).filter
            (mapped_indirect sched ts1.fast_mapping proc)).length := by
  refine ⟨add_task_returns_iff sched task proc ts, ?_⟩
  intro ts1 hadd
  obtain ⟨h1, timeline, h2⟩ := add_task_some_inv sched task proc ts ts1 hadd
  obtain ⟨x, ts0, ts2, htest, hadd2, hrest⟩ := add_task_post sched task proc ts timeline h1 h2
  rw [hadd] at hadd2
  have hts := Option.some.inj hadd2
  subst hts
  exact ⟨x, ts0, timeline, htest, h2, hrest⟩

/-- An instance of `add_task_effect`: committing task `1` of `chain_sched` on
processor `1` after its predecessor `0` was committed on processor `0`; one
transition is counted. -/
theorem add_task_effect_example :
    ∃ ts ts1 : TimeSchedule, add_task chain_sched 0 0 (TimeSchedule.init 2) = some ts ∧
      add_task chain_sched 1 1 ts = some ts1 ∧
      ts1.amount_of_transitions = 1 ∧ ts1.amount_of_indirect_transitions = 0 ∧
      ∃ (x : Int) (ts0 : TimeSchedule) (timeline : proc_info),
        test_add_task chain_sched 1 1 ts = some (x, ts0) ∧
        ts.proc_array[(1 : Proc)]? = some timeline ∧
        ts1.proc_array[(1 : Proc)]? =
          some (timeline ++ [⟨1, x, x + chain_sched.get_task_time 1 1⟩]) ∧
        ts1.proc_array.length = ts.proc_array.length ∧
        (∀ q, q ≠ 1 → ts1.proc_array[q]? = ts.proc_array[q]?) ∧
        ts1.fast_mapping 1 = some 1 ∧
        (∀ j, j ≠ 1 →
          ts1.fast_mapping j = touch ts.fast_mapping (chain_sched.get_in_edges 1) j) ∧
        (∀ j v, j ≠ 1 → ts.fast_mapping j = some v → ts1.fast_mapping j = some v) ∧
        ts1.amount_of_transitions = ts.amount_of_transitions +
          ((chain_sched.get_in_edges 1).filter (mapped_elsewhere ts1.fast_mapping 1)).length ∧
        ts1.amount_of_indirect_transitions = ts.amount_of_indirect_transitions +
          ((chain_sched.get_in_edges 1).filter
            (mapped_indirect chain_sched ts1.fast_mapping 1)).length :=
  ⟨_, _, rfl, rfl, rfl, rfl, (add_task_effect chain_sched 1 1 _).2 _ rfl⟩

/-- Claim C6 (the effect of `add_task`), evaluated on the code.  Task `1` of
`skew_sched` has the single incoming edge `0 → 1`, and on a fresh
`TimeSchedule(2)` the source `0` is mapped to no processor, so no incoming
edge has a source mapped to a processor different from `1`.
`add_task(sched, 1, 1)` nevertheless raises `amount_of_transitions` from `0`
to `1`: `fast_mapping[from]` inserts `0 -> 0` and the inserted `0` differs
from `proc`.  For task `0`, which has no incoming edge, `add_task` appends no
entry at all: it has no result. -/
theorem add_task_counts_unmapped_source :
    skew_sched.get_in_edges 1 = [0] ∧
    (TimeSchedule.init 2).fast_mapping 0 = none ∧
    ((skew_sched.get_in_edges 1).filter
      (mapped_elsewhere (TimeSchedule.init 2).fast_mapping 1)).length = 0 ∧
    (TimeSchedule.init 2).amount_of_transitions = 0 ∧
    (∃ ts1 : TimeSchedule, add_task skew_sched 1 1 (TimeSchedule.init 2) = some ts1 ∧
      ts1.proc_array = [[], [⟨1, 6, 7⟩]] ∧
      ts1.amount_of_transitions = 1 ∧ ts1.fast_mapping 0 = some 0) ∧
    skew_sched.get_in_edges 0 = [] ∧
    add_task skew_sched 0 0 (TimeSchedule.init 2) = none := by
  exact ⟨rfl, rfl, rfl, rfl, ⟨_, rfl, rfl, rfl, rfl⟩, rfl, rfl⟩

/-- Claim C7: in a state reached from the empty `TimeSchedule` by commits with
non-negative execution costs in which every processor holds at least one
task, `get_time()` returns a value as soon as there is a processor, and it
returns `m` exactly when `m` is the maximum finish time over all entries on
all processors (the finish time of some entry, and no entry finishes later). -/
theorem get_time_is_max_finish (proc_num : Nat) (ts : TimeSchedule)
    (hr : Reachable NonNegCosts proc_num ts)
    (hbusy : ∀ timeline ∈ ts.proc_array, timeline ≠ []) :
    (0 < proc_num → ∃ m, get_time ts = some m) ∧
    ∀ m, get_time ts = some m ↔ (m ∈ all_finishes ts ∧ ∀ f ∈ all_finishes ts, f ≤ m) := by
  obtain ⟨hok, hlen⟩ := reachable_state_ok proc_num ts hr
  have hmax : ∀ m, get_time ts = some m →
      (m ∈ all_finishes ts ∧ ∀ f ∈ all_finishes ts, f ≤ m) := by
    intro m hm
    obtain ⟨-, ⟨timeline, ht, b, hb, hbm⟩, hup⟩ := get_time_eq_some ts m hm
    refine ⟨?_, ?_⟩
    · unfold all_finishes
      exact List.mem_map.mpr
        ⟨b, List.mem_flatten.mpr ⟨timeline, ht, List.mem_of_getLast?_eq_some hb⟩, hbm⟩
    · intro f hf
      unfold all_finishes at hf
      obtain ⟨a, ha, haf⟩ := List.mem_map.mp hf
      obtain ⟨tl, htl, hatl⟩ := List.mem_flatten.mp ha
      obtain ⟨q, hq⟩ := List.getElem?_of_mem htl
      cases hlast : tl.getLast? with
      | none => exact absurd (List.getLast?_eq_none_iff.mp hlast) (hbusy tl htl)
      | some c =>
        have h1 := timeline_ok_last tl c (hok q tl hq) hlast a hatl
        have h2 := hup tl htl c hlast
        omega
  refine ⟨?_, ?_⟩
  · intro hpos
    have hne : ts.proc_array ≠ [] := by
      intro hnil
      rw [hnil] at hlen
      have h0 : proc_num = 0 := hlen.symm
      omega
    exact get_time_isSome ts hne hbusy
  · intro m
    refine ⟨hmax m, ?_⟩
    rintro ⟨hmem, hup⟩
    have hne : ts.proc_array ≠ [] := by
      intro hnil
      simp [all_finishes, hnil] at hmem
    obtain ⟨m0, hm0⟩ := get_time_isSome ts hne hbusy
    obtain ⟨hmem0, hup0⟩ := hmax m0 hm0
    have h1 := hup m0 hmem0
    have h2 := hup0 m hmem
    have hmm : m0 = m := by omega
    rw [← hmm]
    exact hm0

/-- Witness of `get_time_is_max_finish`: one processor holding tasks `0` and
`1` of `chain_sched`, committed in this order; the makespan is `21`. -/
theorem get_time_is_max_finish_witness :
    ∃ ts1 ts : TimeSchedule, add_task chain_sched 0 0 (TimeSchedule.init 1) = some ts1 ∧
      add_task chain_sched 1 0 ts1 = some ts ∧
      ts.proc_array = [[⟨0, 10, 20⟩, ⟨1, 20, 21⟩]] ∧ get_time ts = some 21 ∧
      Reachable NonNegCosts 1 ts ∧ (∀ timeline ∈ ts.proc_array, timeline ≠ []) ∧
      ((0 < 1 → ∃ m, get_time ts = some m) ∧
        ∀ m, get_time ts = some m ↔ (m ∈ all_finishes ts ∧ ∀ f ∈ all_finishes ts, f ≤ m)) :=
  ⟨_, _, rfl, rfl, rfl, rfl,
    Reachable.step chain_sched 1 0
      (Reachable.step chain_sched 0 0 Reachable.init chain_sched_nonneg rfl)
      chain_sched_nonneg rfl,
    by intro timeline h; rw [List.mem_singleton.mp h]; exact List.cons_ne_nil _ _,
    get_time_is_max_finish 1 _
      (Reachable.step chain_sched 1 0
        (Reachable.step chain_sched 0 0 Reachable.init chain_sched_nonneg rfl)
        chain_sched_nonneg rfl)
      (by intro timeline h; rw [List.mem_singleton.mp h]; exact List.cons_ne_nil _ _)⟩

/-- Claim C8 (`get_time()` with an idle processor), evaluated on the code.
After one commit on two processors the second timeline is empty; the
specification's makespan, with the idle processor contributing `0`, is `20`,
but `get_time` calls `back()` on the empty timeline and has no result.  The
same holds for a freshly constructed `TimeSchedule(1)`. -/
theorem get_time_undefined_with_idle_processor :
    (∃ ts1 : TimeSchedule,
      add_task chain_sched 0 0 (TimeSchedule.init 2) = some ts1 ∧
      ts1.proc_array = [[⟨0, 10, 20⟩], []] ∧
      makespan_spec ts1 = 20 ∧ get_time ts1 = none) ∧
    makespan_spec (TimeSchedule.init 1) = 0 ∧ get_time (TimeSchedule.init 1) = none := by
  exact ⟨⟨_, rfl, rfl, rfl, rfl⟩, rfl, rfl⟩

/-- The makespan does not drop under a commit that returns.  In a state in
which `get_time()` is defined, with non-negative execution costs: whenever
`add_task` returns, `get_time()` is defined in the new state and is at least
the value before the commit; and `add_task` returns exactly for a task with
an incoming edge on a processor of the schedule. -/
theorem get_time_monotone (sched : Schedule) (task : Task) (proc : Proc) (ts : TimeSchedule)
    (m : Int) (hm : get_time ts = some m) (hcost : NonNegCosts sched) :
    ((∃ ts1, add_task sched task proc ts = some ts1) ↔
      (sched.get_in_edges task ≠ [] ∧ proc < ts.proc_array.length)) ∧
    ∀ ts1, add_task sched task proc ts = some ts1 →
      ∃ m1, get_time ts1 = some m1 ∧ m ≤ m1 := by
  refine ⟨add_task_returns_iff sched task proc ts, ?_⟩
  intro ts1 hadd
  obtain ⟨h1, h2⟩ := (add_task_returns_iff sched task proc ts).mp ⟨ts1, hadd⟩
  obtain ⟨ts2, m1, hadd2, hm1, hle⟩ := get_time_after_commit sched task proc ts m hm hcost h1 h2
  rw [hadd] at hadd2
  have hts := Option.some.inj hadd2
  subst hts
  exact ⟨m1, hm1, hle⟩

/-- An instance of `get_time_monotone`: one processor holding task `0` of
`chain_sched` (makespan `20`); committing task `1` on it returns, and the
makespan of the result is at least `20`. -/
theorem get_time_monotone_example :
    add_task chain_sched 0 0 (TimeSchedule.init 1) = some one_proc_state ∧
    get_time one_proc_state = some 20 ∧ NonNegCosts chain_sched ∧
    ∃ ts1, add_task chain_sched 1 0 one_proc_state = some ts1 ∧
      ∃ m1, get_time ts1 = some m1 ∧ 20 ≤ m1 := by
  have h := get_time_monotone chain_sched 1 0 one_proc_state 20 rfl chain_sched_nonneg
  obtain ⟨ts1, h1⟩ := h.1.mpr ⟨by decide, by decide⟩
  exact ⟨rfl, rfl, chain_sched_nonneg, ts1, h1, h.2 ts1 h1⟩

/-- Claim C9 (the makespan is monotone under every commit), evaluated on the
code.  On one processor holding task `0` of `chain_sched`, `get_time()` is
defined and returns `20`, and all execution costs are non-negative.  Task `5`
has no incoming edge: `add_task(sched, 5, 0)` dereferences
`std::max_element` of an empty vector and has no result, so there is no
schedule after the commit whose `get_time()` could be at least `20`. -/
theorem add_task_on_root_task_leaves_no_makespan :
    add_task chain_sched 0 0 (TimeSchedule.init 1) = some one_proc_state ∧
    one_proc_state.proc_array = [[⟨0, 10, 20⟩]] ∧
    get_time one_proc_state = some 20 ∧ NonNegCosts chain_sched ∧
    (0 : Proc) < one_proc_state.proc_array.length ∧
    chain_sched.get_in_edges 5 = [] ∧
    add_task chain_sched 5 0 one_proc_state = none ∧
    (match add_task chain_sched 5 0 one_proc_state with
      | some ts1 => get_time ts1
      | none => none) = none := by
  exact ⟨rfl, rfl, rfl, chain_sched_nonneg, by decide, rfl, rfl, rfl⟩

/-- Claim C10 (`test_add_task` of a task without incoming edges), evaluated
on the code.  Task `0` of `skew_sched` has no incoming edge; on an idle
processor the specification gives `dataReady = 0` and the start `0`, but the
code dereferences `std::max_element` of the empty vector `times` and has no
result, on an idle processor as well as on a busy one, and so have `add_task`
and `GC2`. -/
theorem test_add_task_undefined_without_in_edges :
    skew_sched.get_in_edges 0 = [] ∧
    evaluateStart_spec skew_sched 0 0 (TimeSchedule.init 2) = some 0 ∧
    (test_add_task skew_sched 0 0 (TimeSchedule.init 2)).map Prod.fst = none ∧
    (∃ ts1 : TimeSchedule, add_task skew_sched 1 1 (TimeSchedule.init 2) = some ts1 ∧
      ts1.proc_array = [[], [⟨1, 6, 7⟩]] ∧
      evaluateStart_spec skew_sched 0 1 ts1 = some 7 ∧
      (test_add_task skew_sched 0 1 ts1).map Prod.fst = none) ∧
    (add_task skew_sched 0 0 (TimeSchedule.init 2)).map TimeSchedule.proc_array = none ∧
    (GC2 skew_sched 0 (TimeSchedule.init 2)).map Prod.fst = none := by
  exact ⟨rfl, rfl, rfl, ⟨_, rfl, rfl, rfl, rfl⟩, rfl, rfl⟩

/-! ## The selectors and the driver on a task without incoming edges -/

theorem GC2_none_of_no_edges (sched : Schedule) (task : Task) (ts : TimeSchedule)
    (h : sched.get_in_edges task = []) : GC2 sched task ts = none := by
  unfold GC2
  cases hps : List.range ts.proc_array.length with
  | nil => simp [GC2_times, min_element]
  | cons i rest => simp [GC2_times, test_add_task_no_edges sched task i ts h]

theorem GC2_CR_none_of_no_edges {D : Type} (fp : DoubleArith D) (sched : Schedule) (task : Task) (C1 C2 C3 : D)
    (ts : TimeSchedule) (h : sched.get_in_edges task = []) :
    GC2_CR fp sched task C1 C2 C3 ts = none := by
  unfold GC2_CR
  cases hps : List.range ts.proc_array.length with
  | nil => simp [GC2_CR_times, min_element]
  | cons i rest => simp [GC2_CR_times, test_add_task_no_edges sched task i ts h]

theorem GC2_BF_none_of_no_edges {D : Type} (fp : DoubleArith D) (sched : Schedule) (task : Task) (C1 C2 : D)
    (ts : TimeSchedule) (h : sched.get_in_edges task = []) :
    GC2_BF fp sched task C1 C2 ts = none := by
  unfold GC2_BF
  cases hps : List.range ts.proc_array.length with
  | nil => simp [GC2_BF_times, min_element]
  | cons i rest => simp [GC2_BF_times, test_add_task_no_edges sched task i ts h]

theorem choose_proc_none_of_no_edges {D : Type} (fp : DoubleArith D)
    (criteria : extra_criteria) (sched : Schedule)
    (task : Task) (ts : TimeSchedule) (h : sched.get_in_edges task = []) :
    choose_proc fp criteria sched task ts = none := by
  cases criteria
  · exact GC2_none_of_no_edges sched task ts h
  · exact GC2_CR_none_of_no_edges fp sched task (fp.of_int 1) (fp.of_int 1)
      (fp.lit (1 / 2)) ts h
  · exact GC2_BF_none_of_no_edges fp sched task (fp.of_int 1) (fp.lit (7 / 10)) ts h

theorem top_vertex_no_in_edges (g : TaskGraph) (hfresh : g.removed = []) (task : Task)
    (h : task ∈ get_top_vertices g) : g.schedule.get_in_edges task = [] := by
  unfold get_top_vertices at h
  rw [hfresh] at h
  simp only [List.mem_filter, List.contains_nil, Bool.not_false, Bool.true_and,
    Bool.or_false, List.all_eq_true, Bool.not_eq_true', beq_eq_false_iff_ne, ne_eq] at h
  simp only [TaskGraph.schedule, List.map_eq_nil_iff, List.filter_eq_nil_iff, beq_iff_eq]
  intro e he
  exact h.2 e he

theorem main_loop_undefined_on_fresh_graph {D : Type} (fp : DoubleArith D)
    (GC1 : TaskGraph → List Task → Task) (criteria : extra_criteria) (fuel : Nat) (g : TaskGraph) (ts : TimeSchedule)
    (iterations : Nat) (hfresh : g.removed = []) (hne : get_top_vertices g ≠ [])
    (hGC1 : GC1 g (get_top_vertices g) ∈ get_top_vertices g) :
    main_loop fp GC1 criteria (fuel + 1) g ts (get_top_vertices g) iterations =
      Outcome.undefined := by
  have hroot := top_vertex_no_in_edges g hfresh _ hGC1
  cases hD : get_top_vertices g with
  | nil => exact absurd hD hne
  | cons d ds =>
    rw [hD] at hroot
    simp only [main_loop, choose_proc_none_of_no_edges fp criteria _ _ ts hroot]

/-! ## The claims, continued -/

/-- Claim C11 (chain `0 → 1 → 2 → 3` on two processors under plain `GC2`),
evaluated on the code.  The first frontier is `[0]`, task `0` has no incoming
edge, and the first iteration of the loop calls `GC2` on it, which
dereferences `std::max_element` of an empty vector: the run has no result,
whatever the iteration budget, instead of placing four tasks on one processor
with `get_time() = 4`. -/
theorem chain_scenario_undefined :
    get_top_vertices chain4 = [0] ∧
    chain4.schedule.get_in_edges 0 = [] ∧
    (GC2 chain4.schedule 0 (TimeSchedule.init 2)).map Prod.fst = none ∧
    (∀ (D : Type) (fp : DoubleArith D) (fuel : Nat),
      main_loop fp first_of_frontier extra_criteria.NO (fuel + 1) chain4
        (TimeSchedule.init 2) (get_top_vertices chain4) 0 = Outcome.undefined) ∧
    (∀ (D : Type) (fp : DoubleArith D) (fuel : Nat),
      (main_run fp first_of_frontier extra_criteria.NO (fuel + 1) chain4).map
        (fun r => (r.2.1, r.2.2)) = none) := by
  refine ⟨rfl, rfl, rfl, fun D fp fuel => rfl, fun D fp fuel => rfl⟩

/-- Claim C12 (`calculate_CR` returns the exact fraction), evaluated on the
code.  After task `0` is committed on processor `0` and its successor `1` on
processor `1`, the schedule has `1` transition and the graph `2` edges, so
`0 < amount_of_transitions < num_edges` and the ratio is `1/2`; the code
divides the two `std::size_t` first and returns `0`. -/
theorem calculate_CR_truncates :
    ((add_task chain_sched 0 0 (TimeSchedule.init 2)).bind (add_task chain_sched 1 1)).map
      TimeSchedule.amount_of_transitions = some 1 ∧
    crossed_state.amount_of_transitions = 1 ∧ chain_sched.num_edges = 2 ∧
    CR_spec chain_sched crossed_state = 1 / 2 ∧
    calculate_CR chain_sched crossed_state = some 0 ∧
    ((0 : Nat) : ℚ) ≠ CR_spec chain_sched crossed_state := by
  have hspec : CR_spec chain_sched crossed_state = 1 / 2 := by
    have h1 : crossed_state.amount_of_transitions = 1 := rfl
    have h2 : chain_sched.num_edges = 2 := rfl
    simp [CR_spec, h1, h2]
  refine ⟨rfl, rfl, rfl, hspec, rfl, ?_⟩
  rw [hspec]; norm_num

/-- Claim C13 (`calculate_BF` takes the quotient as an exact fraction),
evaluated on the code.  With task counts `(2, 1)` on two processors the
formula gives `ceil(100 * (2 * 2 / 3 - 1)) = 34`; the code divides in
`std::size_t`, `2 * 2 / 3 = 1`, and returns `0`. -/
theorem calculate_BF_truncates :
    two_one_state.proc_array.map List.length = [2, 1] ∧
    BF_spec two_one_state = 34 ∧
    calculate_BF two_one_state = some 0 := by
  have hlen : two_one_state.proc_array.map List.length = [2, 1] := rfl
  have hn : two_one_state.proc_array.length = 2 := rfl
  refine ⟨hlen, ?_, rfl⟩
  unfold BF_spec
  rw [hlen, hn, Int.ceil_eq_iff]
  norm_num

/-! ## The three selectors -/

theorem foldl_min_first {α : Type} (key : α → Int) (xs : List α) :
    ∀ (pre post : List α) (s : α), (∀ y ∈ pre, key s < key y) → (∀ y ∈ post, key s ≤ key y) →
      ∃ pre1 post1,
        pre ++ s :: post ++ xs =
          pre1 ++ xs.foldl (fun smallest y =>
            if decide (key y < key smallest) then y else smallest) s :: post1 ∧
        (∀ y ∈ pre1, key (xs.foldl (fun smallest y =>
            if decide (key y < key smallest) then y else smallest) s) < key y) ∧
        (∀ y ∈ post1, key (xs.foldl (fun smallest y =>
            if decide (key y < key smallest) then y else smallest) s) ≤ key y) := by
  induction xs with
  | nil =>
    intro pre post s hpre hpost
    exact ⟨pre, post, by simp, hpre, hpost⟩
  | cons a rest ih =>
    intro pre post s hpre hpost
    simp only [List.foldl_cons]
    by_cases hlt : key a < key s
    · simp only [hlt, decide_True, if_true]
      obtain ⟨pre1, post1, heq, h1, h2⟩ := ih (pre ++ s :: post) [] a
        (by
          intro y hy
          rcases List.mem_append.mp hy with hy | hy
          · have := hpre y hy; omega
          · rcases List.mem_cons.mp hy with rfl | hy
            · exact hlt
            · have := hpost y hy; omega)
        (by simp)
      refine ⟨pre1, post1, ?_, h1, h2⟩
      rw [← heq]
      simp
    · simp only [hlt, decide_False, Bool.false_eq_true, if_false]
      obtain ⟨pre1, post1, heq, h1, h2⟩ := ih pre (post ++ [a]) s hpre
        (by
          intro y hy
          rcases List.mem_append.mp hy with hy | hy
          · exact hpost y hy
          · rw [List.mem_singleton.mp hy]; omega)
      refine ⟨pre1, post1, ?_, h1, h2⟩
      rw [← heq]
      simp

theorem min_element_first {α : Type} (key : α → Int) (l : List α) (hne : l ≠ []) :
    ∃ e pre post, min_element (fun a b => decide (key a < key b)) l = some e ∧
      l = pre ++ e :: post ∧ (∀ y ∈ pre, key e < key y) ∧ (∀ y ∈ post, key e ≤ key y) := by
  cases l with
  | nil => exact absurd rfl hne
  | cons x xs =>
    obtain ⟨pre1, post1, heq, h1, h2⟩ := foldl_min_first key xs [] [] x (by simp) (by simp)
    exact ⟨_, pre1, post1, rfl, by simpa using heq, h1, h2⟩

theorem select_first_min (vals : List (Proc × Int)) (n : Nat)
    (hfst : vals.map Prod.fst = List.range n) (hn : 0 < n) :
    ∃ best, min_element (fun a b : Proc × Int => decide (a.2 < b.2)) vals = some best ∧
      best ∈ vals ∧ best.1 < n ∧ (∀ pr ∈ vals, best.2 ≤ pr.2) ∧
      (∀ pr ∈ vals, pr.1 < best.1 → best.2 < pr.2) := by
  have hne : vals ≠ [] := by
    intro hnil
    rw [hnil] at hfst
    have hlen := congrArg List.length hfst
    simp at hlen
    omega
  obtain ⟨best, pre, post, hmin, hsplit, hpre, hpost⟩ :=
    min_element_first (fun pr : Proc × Int => pr.2) vals hne
  have hmem : best ∈ vals := by rw [hsplit]; simp
  have hrange : best.1 ∈ List.range n := by
    rw [← hfst]; exact List.mem_map_of_mem _ hmem
  have hpw : List.Pairwise (· < ·) (vals.map Prod.fst) := by
    rw [hfst]; exact List.pairwise_lt_range n
  rw [hsplit, List.map_append, List.map_cons, List.pairwise_append] at hpw
  obtain ⟨-, htail, -⟩ := hpw
  have hpost_lt : ∀ pr ∈ post, best.1 < pr.1 := by
    intro pr hpr
    exact (List.pairwise_cons.mp htail).1 pr.1 (List.mem_map_of_mem _ hpr)
  refine ⟨best, hmin, hmem, List.mem_range.mp hrange, ?_, ?_⟩
  · intro pr hpr
    rw [hsplit] at hpr
    rcases List.mem_append.mp hpr with h | h
    · exact le_of_lt (hpre pr h)
    · rcases List.mem_cons.mp h with rfl | h
      · exact le_refl _
      · exact hpost pr h
  · intro pr hpr hlt
    rw [hsplit] at hpr
    rcases List.mem_append.mp hpr with h | h
    · exact hpre pr h
    · rcases List.mem_cons.mp h with rfl | h
      · exact absurd hlt (lt_irrefl _)
      · exact absurd hlt (Nat.lt_asymm (hpost_lt pr h))

theorem sel_times_spec (eval : Proc → TimeSchedule → Option (Int × TimeSchedule))
    (cost : Proc → Option Int) (I : TimeSchedule → Prop) (ps : List Proc)
    (hstep : ∀ i ∈ ps, ∀ ts, I ts →
      ∃ c ts1, eval i ts = some (c, ts1) ∧ I ts1 ∧ cost i = some c) :
    ∀ (ts : TimeSchedule) (times : List (Proc × Int)), I ts →
      ∃ vals ts1, sel_times eval ps ts times = some (times ++ vals, ts1) ∧
        vals.map Prod.fst = ps ∧ ∀ pr ∈ vals, cost pr.1 = some pr.2 := by
  induction ps with
  | nil =>
    intro ts times _
    exact ⟨[], ts, by simp [sel_times], rfl, by simp⟩
  | cons i rest ih =>
    intro ts times hI
    obtain ⟨c, ts1, hev, hI1, hc⟩ := hstep i (List.mem_cons_self _ _) ts hI
    obtain ⟨vals, ts2, hrec, hfst, hvals⟩ :=
      ih (fun k hk => hstep k (List.mem_cons_of_mem _ hk)) ts1 (times ++ [(i, c)]) hI1
    refine ⟨(i, c) :: vals, ts2, ?_, by simp [hfst], ?_⟩
    · simp only [sel_times, hev]
      rw [hrec]
      simp
    · intro pr hpr
      rcases List.mem_cons.mp hpr with rfl | hpr
      · exact hc
      · exact hvals pr hpr

theorem GC2_times_eq_sel (sched : Schedule) (task : Task) (ps : List Proc) :
    ∀ (ts : TimeSchedule) (times : List (Proc × Int)),
      GC2_times sched task ps ts times =
        sel_times (fun i ts => test_add_task sched task i ts) ps ts times := by
  induction ps with
  | nil => intro ts times; rfl
  | cons i rest ih =>
    intro ts times
    simp only [GC2_times, sel_times]
    cases test_add_task sched task i ts with
    | none => rfl
    | some r => exact ih _ _

theorem GC2_CR_times_eq_sel {D : Type} (fp : DoubleArith D) (sched : Schedule) (task : Task) (C1 C2 : D) (ps : List Proc) :
    ∀ (ts : TimeSchedule) (times : List (Proc × Int)),
      GC2_CR_times fp sched task C1 C2 ps ts times =
        sel_times (eval_CR fp sched task C1 C2) ps ts times := by
  induction ps with
  | nil => intro ts times; rfl
  | cons i rest ih =>
    intro ts times
    simp only [GC2_CR_times, sel_times, eval_CR]
    cases test_add_task sched task i ts with
    | none => rfl
    | some r =>
      simp only
      cases CR_with_task sched task i r.2 with
      | none => rfl
      | some cr0 =>
        simp only
        cases test_add_task sched task i r.2 with
        | none => rfl
        | some r2 =>
          simp only
          cases CR_with_task sched task i r2.2 with
          | none => rfl
          | some cr => exact ih _ _

theorem GC2_BF_times_eq_sel {D : Type} (fp : DoubleArith D) (sched : Schedule) (task : Task) (C1 C2 : D) (ps : List Proc) :
    ∀ (ts : TimeSchedule) (times : List (Proc × Int)),
      GC2_BF_times fp sched task C1 C2 ps ts times =
        sel_times (eval_BF fp sched task C1 C2) ps ts times := by
  induction ps with
  | nil => intro ts times; rfl
  | cons i rest ih =>
    intro ts times
    simp only [GC2_BF_times, sel_times, eval_BF]
    cases test_add_task sched task i ts with
    | none => rfl
    | some r =>
      simp only
      cases BF_with_task sched task i r.2 with
      | none => rfl
      | some bf => exact ih _ _

theorem same_view_refl (ts : TimeSchedule) : same_view ts ts :=
  ⟨rfl, fun _ => rfl, rfl, rfl⟩

theorem same_view_trans (a b c : TimeSchedule) (h1 : same_view a b) (h2 : same_view b c) :
    same_view a c :=
  ⟨h1.1.trans h2.1, fun j => (h1.2.1 j).trans (h2.2.1 j), h1.2.2.1.trans h2.2.2.1,
    h1.2.2.2.trans h2.2.2.2⟩

theorem test_add_task_same_view (sched : Schedule) (task : Task) (proc : Proc)
    (ts ts1 : TimeSchedule) (x : Int) (h : test_add_task sched task proc ts = some (x, ts1)) :
    same_view ts1 ts := by
  obtain ⟨h1, h2, h3, h4⟩ := test_add_task_state sched task proc ts ts1 x h
  refine ⟨h1, ?_, h3, h4⟩
  intro j
  rw [h2, map_value_touch]

theorem map_value_update (fm : Task → Option Proc) (k j : Task) (v : Proc) :
    map_value (Function.update fm k (some v)) j = if j = k then v else map_value fm j := by
  unfold map_value
  by_cases h : j = k
  · subst h; simp
  · simp [Function.update_noteq h, h]

theorem crossing_congr (sched : Schedule) (proc : Proc) (f g : Task → Option Proc)
    (l : List Task) (h : ∀ j, map_value f j = map_value g j) :
    crossing proc f l = crossing proc g l ∧
    crossing_indirect sched proc f l = crossing_indirect sched proc g l := by
  simp [crossing, crossing_indirect, h]

theorem crossing_after_commit_congr (sched : Schedule) (task : Task) (proc : Proc)
    (f g : Task → Option Proc) (h : ∀ j, map_value f j = map_value g j) :
    crossing proc (Function.update (touch f (sched.get_in_edges task)) task (some proc))
        (sched.get_in_edges task) =
      crossing proc (Function.update (touch g (sched.get_in_edges task)) task (some proc))
        (sched.get_in_edges task) := by
  apply (crossing_congr sched proc _ _ _ ?_).1
  intro j
  rw [map_value_update, map_value_update, map_value_touch, map_value_touch, h j]

theorem add_task_none_of_no_proc (sched : Schedule) (task : Task) (proc : Proc)
    (ts : TimeSchedule) (h : ts.proc_array[proc]? = none) :
    add_task sched task proc ts = none := by
  have hlen : ts.proc_array.length ≤ proc := List.getElem?_eq_none_iff.mp h
  simp [add_task, test_add_task_no_proc sched task proc ts hlen]

theorem CR_with_task_congr (sched : Schedule) (task : Task) (proc : Proc)
    (ts ts0 : TimeSchedule) (h : same_view ts ts0) :
    CR_with_task sched task proc ts = CR_with_task sched task proc ts0 := by
  unfold CR_with_task
  by_cases hedges : sched.get_in_edges task = []
  · rw [add_task_none_of_no_edges sched task proc ts hedges,
      add_task_none_of_no_edges sched task proc ts0 hedges]
  · cases hp : ts0.proc_array[proc]? with
    | none =>
      rw [add_task_none_of_no_proc sched task proc ts0 hp,
        add_task_none_of_no_proc sched task proc ts (by rw [h.1]; exact hp)]
    | some timeline =>
      obtain ⟨x, tsx, -, -, -, -, heq⟩ := add_task_eq sched task proc ts timeline hedges
        (by rw [h.1]; exact hp)
      obtain ⟨x0, tsx0, -, -, -, -, heq0⟩ := add_task_eq sched task proc ts0 timeline hedges hp
      rw [heq, heq0]
      simp only [calculate_CR]
      rw [h.2.2.1, crossing_after_commit_congr sched task proc _ _ h.2.1]

theorem calculate_BF_congr (ts ts0 : TimeSchedule) (h : ts.proc_array = ts0.proc_array) :
    calculate_BF ts = calculate_BF ts0 := by
  unfold calculate_BF
  rw [h]

theorem BF_with_task_congr (sched : Schedule) (task : Task) (proc : Proc)
    (ts ts0 : TimeSchedule) (h : same_view ts ts0) :
    BF_with_task sched task proc ts = BF_with_task sched task proc ts0 := by
  unfold BF_with_task
  by_cases hedges : sched.get_in_edges task = []
  · rw [add_task_none_of_no_edges sched task proc ts hedges,
      add_task_none_of_no_edges sched task proc ts0 hedges]
  · cases hp : ts0.proc_array[proc]? with
    | none =>
      rw [add_task_none_of_no_proc sched task proc ts0 hp,
        add_task_none_of_no_proc sched task proc ts (by rw [h.1]; exact hp)]
    | some timeline =>
      obtain ⟨x, tsx, htest, -, -, -, heq⟩ := add_task_eq sched task proc ts timeline hedges
        (by rw [h.1]; exact hp)
      obtain ⟨x0, tsx0, htest0, -, -, -, heq0⟩ :=
        add_task_eq sched task proc ts0 timeline hedges hp
      have hx : x = x0 := by
        have hc := test_add_task_congr sched task proc ts ts0 h.1 h.2.1
        rw [htest, htest0] at hc
        exact Option.some.inj hc
      rw [heq, heq0]
      simp only
      apply calculate_BF_congr
      simp only
      rw [h.1, hx]

theorem foldl_amount (l : List proc_info) (k : Nat) :
    l.foldl (fun amount proc => amount + proc.length) k = k + total_tasks l := by
  induction l generalizing k with
  | nil => simp [total_tasks]
  | cons a rest ih =>
    simp only [List.foldl_cons, ih]
    simp only [total_tasks, List.map_cons, List.sum_cons]
    omega

theorem length_le_total_tasks (l : List proc_info) (timeline : proc_info)
    (h : timeline ∈ l) : timeline.length ≤ total_tasks l := by
  induction l with
  | nil => simp at h
  | cons a rest ih =>
    simp only [total_tasks, List.map_cons, List.sum_cons]
    rcases List.mem_cons.mp h with rfl | h
    · omega
    · have := ih h
      simp only [total_tasks] at this
      omega

theorem total_tasks_le (l : List proc_info) (m : Nat) (h : ∀ timeline ∈ l, timeline.length ≤ m) :
    total_tasks l ≤ l.length * m := by
  induction l with
  | nil => simp [total_tasks]
  | cons a rest ih =>
    have h1 := h a (List.mem_cons_self _ _)
    have h2 := ih (fun timeline ht => h timeline (List.mem_cons_of_mem _ ht))
    simp only [total_tasks, List.map_cons, List.sum_cons, List.length_cons] at h2 ⊢
    rw [Nat.succ_mul]
    omega

theorem calculate_BF_eq (ts : TimeSchedule) (hne : ts.proc_array ≠ [])
    (htotal : total_tasks ts.proc_array ≠ 0) :
    ∃ longest ∈ ts.proc_array, (∀ timeline ∈ ts.proc_array, timeline.length ≤ longest.length) ∧
      calculate_BF ts = some ((100 * (((longest.length * ts.proc_array.length) % 2 ^ 64 /
        total_tasks ts.proc_array + (2 ^ 64 - 1)) % 2 ^ 64)) % 2 ^ 64) := by
  have hcomp : (fun a b : proc_info => decide (a.length < b.length)) =
      (fun a b : proc_info => decide ((a.length : Int) < (b.length : Int))) := by
    funext a b
    simp
  cases hmax : max_element (fun a b : proc_info => decide (a.length < b.length))
      ts.proc_array with
  | none => exact absurd ((max_element_eq_none _ _).mp hmax) hne
  | some longest =>
    have hmax2 := hmax
    rw [hcomp] at hmax2
    obtain ⟨hmem, hup⟩ := max_element_key (fun a : proc_info => (a.length : Int)) _ _ hmax2
    refine ⟨longest, hmem, ?_, ?_⟩
    · intro timeline ht
      have := hup timeline ht
      simp only at this
      omega
    · unfold calculate_BF
      rw [hmax]
      simp only [foldl_amount, Nat.zero_add, htotal, if_false]

theorem calculate_BF_eq_none (ts : TimeSchedule)
    (h : ts.proc_array = [] ∨ total_tasks ts.proc_array = 0) : calculate_BF ts = none := by
  unfold calculate_BF
  cases hmax : max_element (fun a b : proc_info => decide (a.length < b.length))
      ts.proc_array with
  | none => rfl
  | some longest =>
    rcases h with h | h
    · rw [h] at hmax; simp [max_element] at hmax
    · simp [foldl_amount, h]

theorem test_add_task_isSome (sched : Schedule) (task : Task) (proc : Proc) (ts : TimeSchedule)
    (hedges : sched.get_in_edges task ≠ []) (hproc : proc < ts.proc_array.length) :
    ∃ x ts1, test_add_task sched task proc ts = some (x, ts1) := by
  obtain ⟨x, hx, -⟩ := test_add_task_eq sched task proc ts ts.proc_array[proc] hedges
    (List.getElem?_eq_getElem hproc)
  exact ⟨x, _, hx⟩

theorem CR_with_task_isSome (sched : Schedule) (task : Task) (proc : Proc) (ts : TimeSchedule)
    (hedges : sched.get_in_edges task ≠ []) (hproc : proc < ts.proc_array.length)
    (hnum : sched.num_edges ≠ 0) : ∃ cr, CR_with_task sched task proc ts = some cr := by
  obtain ⟨ts1, hadd⟩ := (add_task_returns_iff sched task proc ts).mpr ⟨hedges, hproc⟩
  exact ⟨ts1.amount_of_transitions / sched.num_edges,
    by simp [CR_with_task, hadd, calculate_CR, hnum]⟩

theorem CR_with_task_none_of_no_edges_in_graph (sched : Schedule) (task : Task) (proc : Proc)
    (ts : TimeSchedule) (hnum : sched.num_edges = 0) :
    CR_with_task sched task proc ts = none := by
  unfold CR_with_task
  cases add_task sched task proc ts with
  | none => rfl
  | some copy => simp [calculate_CR, hnum]

theorem BF_with_task_isSome (sched : Schedule) (task : Task) (proc : Proc) (ts : TimeSchedule)
    (hedges : sched.get_in_edges task ≠ []) (hproc : proc < ts.proc_array.length) :
    ∃ bf, BF_with_task sched task proc ts = some bf := by
  have hget : ts.proc_array[proc]? = some ts.proc_array[proc] :=
    List.getElem?_eq_getElem hproc
  obtain ⟨x, tsx, -, -, -, -, heq⟩ := add_task_eq sched task proc ts ts.proc_array[proc]
    hedges hget
  have hsame := push_back_at_same ts.proc_array proc
    ⟨task, x, x + sched.get_task_time proc task⟩ ts.proc_array[proc] hget
  have hmem := List.getElem?_mem hsame
  have hne : push_back_at ts.proc_array proc
      ⟨task, x, x + sched.get_task_time proc task⟩ ≠ [] :=
    List.ne_nil_of_mem hmem
  have htotal : total_tasks (push_back_at ts.proc_array proc
      ⟨task, x, x + sched.get_task_time proc task⟩) ≠ 0 := by
    have hle := length_le_total_tasks _ _ hmem
    simp only [List.length_append, List.length_singleton] at hle
    omega
  unfold BF_with_task
  rw [heq]
  simp only
  obtain ⟨longest, -, -, hbf⟩ := calculate_BF_eq
    { proc_array := push_back_at ts.proc_array proc
        ⟨task, x, x + sched.get_task_time proc task⟩
      fast_mapping := touch (Function.update
        (touch ts.fast_mapping (sched.get_in_edges task)) task (some proc))
        (sched.get_in_edges task)
      amount_of_transitions := ts.amount_of_transitions +
        (crossing proc (Function.update
          (touch ts.fast_mapping (sched.get_in_edges task)) task (some proc))
          (sched.get_in_edges task)).length
      amount_of_indirect_transitions := ts.amount_of_indirect_transitions +
        (crossing_indirect sched proc (Function.update
          (touch ts.fast_mapping (sched.get_in_edges task)) task (some proc))
          (sched.get_in_edges task)).length } hne htotal
  exact ⟨_, hbf⟩

theorem eval_GC2_step (sched : Schedule) (task : Task) (ts0 : TimeSchedule)
    (hedges : sched.get_in_edges task ≠ []) (i : Proc) (hi : i < ts0.proc_array.length)
    (ts : TimeSchedule) (hI : same_view ts ts0) :
    ∃ c ts1, test_add_task sched task i ts = some (c, ts1) ∧ same_view ts1 ts0 ∧
      cost_GC2 sched task ts0 i = some c := by
  obtain ⟨x, ts1, hx⟩ := test_add_task_isSome sched task i ts hedges (by rw [hI.1]; exact hi)
  refine ⟨x, ts1, hx, same_view_trans _ _ _ (test_add_task_same_view _ _ _ _ _ _ hx) hI, ?_⟩
  unfold cost_GC2
  rw [← test_add_task_congr sched task i ts ts0 hI.1 hI.2.1, hx]
  rfl

theorem eval_CR_step {D : Type} (fp : DoubleArith D) (sched : Schedule) (task : Task) (C1 C2 : D) (ts0 : TimeSchedule)
    (hedges : sched.get_in_edges task ≠ []) (hnum : sched.num_edges ≠ 0)
    (i : Proc) (hi : i < ts0.proc_array.length) (ts : TimeSchedule) (hI : same_view ts ts0) :
    ∃ c ts1, eval_CR fp sched task C1 C2 i ts = some (c, ts1) ∧ same_view ts1 ts0 ∧
      cost_CR fp sched task C1 C2 ts0 i = some c := by
  obtain ⟨x0, ts1, hx0, hI1, -⟩ := eval_GC2_step sched task ts0 hedges i hi ts hI
  obtain ⟨x, ts2, hx, hI2, hcost⟩ := eval_GC2_step sched task ts0 hedges i hi ts1 hI1
  obtain ⟨cr, hcr⟩ := CR_with_task_isSome sched task i ts0 hedges hi hnum
  have hcr1 : CR_with_task sched task i ts1 = some cr := by
    rw [CR_with_task_congr sched task i ts1 ts0 hI1, hcr]
  have hcr2 : CR_with_task sched task i ts2 = some cr := by
    rw [CR_with_task_congr sched task i ts2 ts0 hI2, hcr]
  refine ⟨fp.to_int (fp.add (fp.mul C1 (fp.of_int x)) (fp.mul C2 (fp.of_int (cr : Int)))), ts2,
    by simp only [eval_CR, hx0, hcr1, hx, hcr2], hI2, ?_⟩
  unfold cost_GC2 at hcost
  cases h0 : test_add_task sched task i ts0 with
  | none => rw [h0] at hcost; exact Option.noConfusion hcost
  | some r =>
    rw [h0] at hcost
    have hr : r.1 = x := Option.some.inj hcost
    simp only [cost_CR, h0, hcr, hr]

theorem eval_BF_step {D : Type} (fp : DoubleArith D) (sched : Schedule) (task : Task) (C1 C2 : D) (ts0 : TimeSchedule)
    (hedges : sched.get_in_edges task ≠ [])
    (i : Proc) (hi : i < ts0.proc_array.length) (ts : TimeSchedule) (hI : same_view ts ts0) :
    ∃ c ts1, eval_BF fp sched task C1 C2 i ts = some (c, ts1) ∧ same_view ts1 ts0 ∧
      cost_BF fp sched task C1 C2 ts0 i = some c := by
  obtain ⟨x, ts1, hx, hI1, hcost⟩ := eval_GC2_step sched task ts0 hedges i hi ts hI
  obtain ⟨bf, hbf⟩ := BF_with_task_isSome sched task i ts0 hedges hi
  have hbf1 : BF_with_task sched task i ts1 = some bf := by
    rw [BF_with_task_congr sched task i ts1 ts0 hI1, hbf]
  refine ⟨fp.to_int (fp.add (fp.mul C1 (fp.of_int x)) (fp.mul C2 (fp.of_int (bf : Int)))), ts1,
    by simp only [eval_BF, hx, hbf1], hI1, ?_⟩
  unfold cost_GC2 at hcost
  cases h0 : test_add_task sched task i ts0 with
  | none => rw [h0] at hcost; exact Option.noConfusion hcost
  | some r =>
    rw [h0] at hcost
    have hr : r.1 = x := Option.some.inj hcost
    simp only [cost_BF, h0, hbf, hr]

theorem select_spec (eval : Proc → TimeSchedule → Option (Int × TimeSchedule))
    (cost : Proc → Option Int) (ts0 : TimeSchedule) (n : Nat) (hn : 0 < n)
    (hstep : ∀ i, i < n → ∀ ts, same_view ts ts0 →
      ∃ c ts1, eval i ts = some (c, ts1) ∧ same_view ts1 ts0 ∧ cost i = some c) :
    ∃ vals ts1 best, sel_times eval (List.range n) ts0 [] = some (vals, ts1) ∧
      min_element (fun a b : Proc × Int => decide (a.2 < b.2)) vals = some best ∧
      lowest_index_minimum cost n best.1 := by
  obtain ⟨vals, ts1, hrun, hfst, hvals⟩ := sel_times_spec eval cost (fun ts => same_view ts ts0)
    (List.range n) (fun i hi => hstep i (List.mem_range.mp hi)) ts0 [] (same_view_refl ts0)
  obtain ⟨best, hmin, hmem, hlt, hle, hfirst⟩ := select_first_min vals n hfst hn
  have hfind : ∀ q, q < n → ∃ pr ∈ vals, pr.1 = q := by
    intro q hq
    have hqmem : q ∈ vals.map Prod.fst := by rw [hfst]; exact List.mem_range.mpr hq
    obtain ⟨pr, hpr, hprq⟩ := List.mem_map.mp hqmem
    exact ⟨pr, hpr, hprq⟩
  refine ⟨vals, ts1, best, by simpa using hrun, hmin, hlt, best.2, hvals best hmem, ?_, ?_⟩
  · intro q hq
    obtain ⟨pr, hpr, hprq⟩ := hfind q hq
    exact ⟨pr.2, by rw [← hprq]; exact hvals pr hpr, hle pr hpr⟩
  · intro q hq
    obtain ⟨pr, hpr, hprq⟩ := hfind q (Nat.lt_trans hq hlt)
    exact ⟨pr.2, by rw [← hprq]; exact hvals pr hpr, hfirst pr hpr (by rw [hprq]; exact hq)⟩

theorem GC2_selects (sched : Schedule) (task : Task) (ts : TimeSchedule)
    (hn : 0 < ts.proc_array.length) (hedges : sched.get_in_edges task ≠ []) :
    ∃ p ts1, GC2 sched task ts = some (p, ts1) ∧
      lowest_index_minimum (cost_GC2 sched task ts) ts.proc_array.length p := by
  obtain ⟨vals, ts1, best, hrun, hmin, hbest⟩ := select_spec
    (fun i ts => test_add_task sched task i ts) (cost_GC2 sched task ts) ts
    ts.proc_array.length hn (fun i hi ts1 hI => eval_GC2_step sched task ts hedges i hi ts1 hI)
  refine ⟨best.1, ts1, ?_, hbest⟩
  simp only [GC2, GC2_times_eq_sel, hrun, hmin]

theorem GC2_CR_selects {D : Type} (fp : DoubleArith D) (sched : Schedule) (task : Task) (C1 C2 C3 : D) (ts : TimeSchedule)
    (hn : 0 < ts.proc_array.length) (hedges : sched.get_in_edges task ≠ [])
    (hnum : sched.num_edges ≠ 0) :
    ∃ p ts1, GC2_CR fp sched task C1 C2 C3 ts = some (p, ts1) ∧
      lowest_index_minimum (cost_CR fp sched task C1 C2 ts) ts.proc_array.length p := by
  obtain ⟨vals, ts1, best, hrun, hmin, hbest⟩ := select_spec
    (eval_CR fp sched task C1 C2) (cost_CR fp sched task C1 C2 ts) ts
    ts.proc_array.length hn
    (fun i hi ts1 hI => eval_CR_step fp sched task C1 C2 ts hedges hnum i hi ts1 hI)
  refine ⟨best.1, ts1, ?_, hbest⟩
  simp only [GC2_CR, GC2_CR_times_eq_sel, hrun, hmin]

theorem GC2_BF_selects {D : Type} (fp : DoubleArith D) (sched : Schedule) (task : Task) (C1 C2 : D) (ts : TimeSchedule)
    (hn : 0 < ts.proc_array.length) (hedges : sched.get_in_edges task ≠ []) :
    ∃ p ts1, GC2_BF fp sched task C1 C2 ts = some (p, ts1) ∧
      lowest_index_minimum (cost_BF fp sched task C1 C2 ts) ts.proc_array.length p := by
  obtain ⟨vals, ts1, best, hrun, hmin, hbest⟩ := select_spec
    (eval_BF fp sched task C1 C2) (cost_BF fp sched task C1 C2 ts) ts
    ts.proc_array.length hn
    (fun i hi ts1 hI => eval_BF_step fp sched task C1 C2 ts hedges i hi ts1 hI)
  refine ⟨best.1, ts1, ?_, hbest⟩
  simp only [GC2_BF, GC2_BF_times_eq_sel, hrun, hmin]

theorem range_eq_nil_of_zero (n : Nat) (h : ¬ 0 < n) : List.range n = [] := by
  have h0 : n = 0 := by omega
  rw [h0]
  rfl

theorem GC2_returns_iff (sched : Schedule) (task : Task) (ts : TimeSchedule) :
    (∃ r, GC2 sched task ts = some r) ↔
      (0 < ts.proc_array.length ∧ sched.get_in_edges task ≠ []) := by
  constructor
  · rintro ⟨r, hr⟩
    refine ⟨?_, ?_⟩
    · by_contra hn
      simp [GC2, range_eq_nil_of_zero _ hn, GC2_times, min_element] at hr
    · intro hnil
      rw [GC2_none_of_no_edges sched task ts hnil] at hr
      exact Option.noConfusion hr
  · rintro ⟨hn, hedges⟩
    obtain ⟨p, ts1, h, -⟩ := GC2_selects sched task ts hn hedges
    exact ⟨_, h⟩

theorem GC2_BF_returns_iff {D : Type} (fp : DoubleArith D) (sched : Schedule) (task : Task) (C1 C2 : D) (ts : TimeSchedule) :
    (∃ r, GC2_BF fp sched task C1 C2 ts = some r) ↔
      (0 < ts.proc_array.length ∧ sched.get_in_edges task ≠ []) := by
  constructor
  · rintro ⟨r, hr⟩
    refine ⟨?_, ?_⟩
    · by_contra hn
      simp [GC2_BF, range_eq_nil_of_zero _ hn, GC2_BF_times, min_element] at hr
    · intro hnil
      rw [GC2_BF_none_of_no_edges fp sched task C1 C2 ts hnil] at hr
      exact Option.noConfusion hr
  · rintro ⟨hn, hedges⟩
    obtain ⟨p, ts1, h, -⟩ := GC2_BF_selects fp sched task C1 C2 ts hn hedges
    exact ⟨_, h⟩

theorem GC2_CR_returns_iff {D : Type} (fp : DoubleArith D) (sched : Schedule) (task : Task) (C1 C2 C3 : D)
    (ts : TimeSchedule) :
    (∃ r, GC2_CR fp sched task C1 C2 C3 ts = some r) ↔
      (0 < ts.proc_array.length ∧ sched.get_in_edges task ≠ [] ∧ sched.num_edges ≠ 0) := by
  constructor
  · rintro ⟨r, hr⟩
    have hn : 0 < ts.proc_array.length := by
      by_contra hn
      simp [GC2_CR, range_eq_nil_of_zero _ hn, GC2_CR_times, min_element] at hr
    refine ⟨hn, ?_, ?_⟩
    · intro hnil
      rw [GC2_CR_none_of_no_edges fp sched task C1 C2 C3 ts hnil] at hr
      exact Option.noConfusion hr
    · intro hnum
      unfold GC2_CR at hr
      cases hps : List.range ts.proc_array.length with
      | nil =>
        have h0 : ts.proc_array.length = 0 := List.range_eq_nil.mp hps
        rw [h0] at hn
        exact absurd hn (Nat.lt_irrefl 0)
      | cons i rest =>
        rw [hps] at hr
        simp only [GC2_CR_times] at hr
        cases h1 : test_add_task sched task i ts with
        | none => simp [h1] at hr
        | some r1 =>
          simp [h1, CR_with_task_none_of_no_edges_in_graph sched task i r1.2 hnum] at hr
  · rintro ⟨hn, hedges, hnum⟩
    obtain ⟨p, ts1, h, -⟩ := GC2_CR_selects fp sched task C1 C2 C3 ts hn hedges hnum
    exact ⟨_, h⟩

theorem double_to_int_of_nonneg (d : ℚ) (z : Int) (h0 : 0 ≤ d) (h1 : (z : ℚ) ≤ d)
    (h2 : d < (z : ℚ) + 1) : double_to_int d = z := by
  unfold double_to_int
  rw [Int.tdiv_eq_ediv (Rat.num_nonneg.mpr h0) (Int.ofNat_nonneg _), ← Rat.floor_def]
  exact Int.floor_eq_iff.mpr ⟨h1, h2⟩

theorem cost_CR_eq {D : Type} (fp : DoubleArith D) (sched : Schedule) (task : Task)
    (C1 C2 : D) (ts : TimeSchedule)
    (proc : Proc) (x : Int) (cr : Nat)
    (hx : (test_add_task sched task proc ts).map Prod.fst = some x)
    (hcr : CR_with_task sched task proc ts = some cr) :
    cost_CR fp sched task C1 C2 ts proc = some (fp.to_int (fp.add (fp.mul C1 (fp.of_int x)) (fp.mul C2 (fp.of_int (cr : Int))))) := by
  cases h0 : test_add_task sched task proc ts with
  | none => rw [h0] at hx; exact Option.noConfusion hx
  | some r =>
    rw [h0] at hx
    have hr : r.1 = x := Option.some.inj hx
    simp only [cost_CR, h0, hcr, hr]

/-- Claim C14 (`GC2_CR` minimizes the exact objective), evaluated on the code.
With `c1 = 1/2`, `c2 = 0` and two idle processors, the task would start at
`1` on processor `0` and at `0` on processor `1`: the exact objectives are
`1/2` and `0`.  The code stores both in the `int` member of the pair, where
they are `0` and `0`, and `std::min_element` returns processor `0`, which
does not minimize the objective.  The values `1/2`, `0` and `1` are exactly
representable, so `exact_arith` computes what IEEE arithmetic computes here. -/
theorem GC2_CR_truncates_objective :
    (test_add_task half_sched 1 0 (TimeSchedule.init 2)).map Prod.fst = some 1 ∧
    (test_add_task half_sched 1 1 (TimeSchedule.init 2)).map Prod.fst = some 0 ∧
    CR_with_task half_sched 1 0 (TimeSchedule.init 2) = some 0 ∧
    CR_with_task half_sched 1 1 (TimeSchedule.init 2) = some 1 ∧
    cost_CR exact_arith half_sched 1 (1 / 2) 0 (TimeSchedule.init 2) 0 = some 0 ∧
    cost_CR exact_arith half_sched 1 (1 / 2) 0 (TimeSchedule.init 2) 1 = some 0 ∧
    (GC2_CR exact_arith half_sched 1 (1 / 2) 0 0 (TimeSchedule.init 2)).map Prod.fst = some 0 ∧
    ¬ ((1 / 2 : ℚ) * ((1 : Int) : ℚ) + 0 * ((0 : Nat) : ℚ) ≤
        (1 / 2 : ℚ) * ((0 : Int) : ℚ) + 0 * ((1 : Nat) : ℚ)) := by
  have hc0 : cost_CR exact_arith half_sched 1 (1 / 2) 0 (TimeSchedule.init 2) 0 = some 0 := by
    rw [cost_CR_eq exact_arith half_sched 1 (1 / 2) 0 (TimeSchedule.init 2) 0 1 0 rfl rfl]
    congr 1
    apply double_to_int_of_nonneg <;> simp only [exact_arith] <;> norm_num
  have hc1 : cost_CR exact_arith half_sched 1 (1 / 2) 0 (TimeSchedule.init 2) 1 = some 0 := by
    rw [cost_CR_eq exact_arith half_sched 1 (1 / 2) 0 (TimeSchedule.init 2) 1 0 1 rfl rfl]
    congr 1
    apply double_to_int_of_nonneg <;> simp only [exact_arith] <;> norm_num
  refine ⟨rfl, rfl, rfl, rfl, hc0, hc1, ?_, by norm_num⟩
  obtain ⟨p, ts1, hrun, hp, cp, hcp, -, hfirst⟩ := GC2_CR_selects exact_arith half_sched 1 (1 / 2) 0 0
    (TimeSchedule.init 2) (by decide) (by decide) (by decide)
  have hp0 : p = 0 := by
    by_contra hne
    have hpos : 0 < p := Nat.pos_of_ne_zero hne
    have hp1 : p = 1 := Nat.le_antisymm (Nat.le_of_lt_succ hp) hpos
    obtain ⟨cq, hcq, hlt⟩ := hfirst 0 hpos
    rw [hp1, hc1] at hcp
    rw [hc0] at hcq
    have e1 : cp = 0 := (Option.some.inj hcp).symm
    have e2 : cq = 0 := (Option.some.inj hcq).symm
    omega
  rw [hrun, hp0]
  rfl

/-- Claim C15 (the ratio metrics on a zero denominator), evaluated on the
code.  For a graph without edges `calculate_CR` and `calculate_CR2` divide
the `std::size_t` counter by `boost::num_edges(...) = 0`, and for a schedule
without committed tasks `calculate_BF` divides by `amount_of_tasks = 0`:
integer division by zero, no result, where the claim expects a defined
value (zero cost). -/
theorem ratio_metrics_undefined_on_zero_denominator :
    no_edge_sched.num_edges = 0 ∧
    calculate_CR no_edge_sched (TimeSchedule.init 2) = none ∧
    calculate_CR2 no_edge_sched (TimeSchedule.init 2) = none ∧
    total_tasks (TimeSchedule.init 2).proc_array = 0 ∧
    calculate_BF (TimeSchedule.init 2) = none := by
  exact ⟨rfl, rfl, rfl, rfl, rfl⟩

theorem touch_of_mapped (fm : Task → Option Proc) (l : List Task)
    (h : ∀ frm ∈ l, (fm frm).isSome = true) : touch fm l = fm := by
  funext j
  unfold touch
  cases hj : fm j with
  | some v => rfl
  | none =>
    by_cases hm : j ∈ l
    · have := h j hm
      rw [hj] at this
      exact absurd this (by simp)
    · simp [hm]

theorem test_add_task_pure_of_mapped (sched : Schedule) (task : Task) (proc : Proc)
    (ts ts1 : TimeSchedule) (x : Int)
    (hmapped : ∀ frm ∈ sched.get_in_edges task, (ts.fast_mapping frm).isSome = true)
    (h : test_add_task sched task proc ts = some (x, ts1)) : ts1 = ts := by
  obtain ⟨h1, h2, h3, h4⟩ := test_add_task_state sched task proc ts ts1 x h
  rw [touch_of_mapped ts.fast_mapping _ hmapped] at h2
  cases ts
  cases ts1
  simp only at h1 h2 h3 h4
  subst h1 h2 h3 h4
  rfl

/-- Claim C16 (`test_add_task` does not mutate), evaluated on the code.  Task
`1` of `skew_sched` has the predecessor `0`, which has no entry in the
mapping of a fresh `TimeSchedule(2)`.  After `test_add_task(sched, 1, 0)`
the mapping holds the entry `0 -> 0`, inserted by `fast_mapping[from]`; the
timelines and both counters are unchanged. -/
theorem test_add_task_inserts_into_mapping :
    skew_sched.get_in_edges 1 = [0] ∧
    (TimeSchedule.init 2).fast_mapping 0 = none ∧
    ∃ (x : Int) (ts1 : TimeSchedule),
      test_add_task skew_sched 1 0 (TimeSchedule.init 2) = some (x, ts1) ∧
      ts1.fast_mapping 0 = some 0 ∧
      ts1.fast_mapping ≠ (TimeSchedule.init 2).fast_mapping ∧
      ts1.proc_array = (TimeSchedule.init 2).proc_array ∧
      ts1.amount_of_transitions = (TimeSchedule.init 2).amount_of_transitions ∧
      ts1.amount_of_indirect_transitions =
        (TimeSchedule.init 2).amount_of_indirect_transitions := by
  refine ⟨rfl, rfl, _, _, rfl, rfl, ?_, rfl, rfl, rfl⟩
  intro h
  have h0 := congrFun h 0
  exact Option.noConfusion h0

/-- Ties go to the lowest processor index in every call of a selector that
returns, for every `double` arithmetic.  Each of `GC2`, `GC2_CR` and `GC2_BF`
returns exactly when the schedule has a processor and the task an incoming
edge (and, for `GC2_CR`, the graph an edge); the processor it returns is then
the lowest-index minimum of the value it compares: that value is at most the
value of every processor, and every processor with a smaller index has a
strictly larger value. -/
theorem ties_broken_by_lowest_index {D : Type} (fp : DoubleArith D) (sched : Schedule) (task : Task) (C1 C2 C3 : D)
    (ts : TimeSchedule) :
    (((∃ r, GC2 sched task ts = some r) ↔
        (0 < ts.proc_array.length ∧ sched.get_in_edges task ≠ [])) ∧
      ∀ p ts1, GC2 sched task ts = some (p, ts1) →
        lowest_index_minimum (cost_GC2 sched task ts) ts.proc_array.length p) ∧
    (((∃ r, GC2_CR fp sched task C1 C2 C3 ts = some r) ↔
        (0 < ts.proc_array.length ∧ sched.get_in_edges task ≠ [] ∧ sched.num_edges ≠ 0)) ∧
      ∀ p ts1, GC2_CR fp sched task C1 C2 C3 ts = some (p, ts1) →
        lowest_index_minimum (cost_CR fp sched task C1 C2 ts) ts.proc_array.length p) ∧
    (((∃ r, GC2_BF fp sched task C1 C2 ts = some r) ↔
        (0 < ts.proc_array.length ∧ sched.get_in_edges task ≠ [])) ∧
      ∀ p ts1, GC2_BF fp sched task C1 C2 ts = some (p, ts1) →
        lowest_index_minimum (cost_BF fp sched task C1 C2 ts) ts.proc_array.length p) := by
  refine ⟨⟨GC2_returns_iff sched task ts, ?_⟩,
    ⟨GC2_CR_returns_iff fp sched task C1 C2 C3 ts, ?_⟩,
    ⟨GC2_BF_returns_iff fp sched task C1 C2 ts, ?_⟩⟩
  · intro p ts1 h
    obtain ⟨hn, hedges⟩ := (GC2_returns_iff sched task ts).mp ⟨_, h⟩
    obtain ⟨p2, ts2, h2, hmin⟩ := GC2_selects sched task ts hn hedges
    rw [h] at h2
    have hp : p = p2 := (Prod.mk.inj (Option.some.inj h2)).1
    rw [hp]
    exact hmin
  · intro p ts1 h
    obtain ⟨hn, hedges, hnum⟩ := (GC2_CR_returns_iff fp sched task C1 C2 C3 ts).mp ⟨_, h⟩
    obtain ⟨p2, ts2, h2, hmin⟩ := GC2_CR_selects fp sched task C1 C2 C3 ts hn hedges hnum
    rw [h] at h2
    have hp : p = p2 := (Prod.mk.inj (Option.some.inj h2)).1
    rw [hp]
    exact hmin
  · intro p ts1 h
    obtain ⟨hn, hedges⟩ := (GC2_BF_returns_iff fp sched task C1 C2 ts).mp ⟨_, h⟩
    obtain ⟨p2, ts2, h2, hmin⟩ := GC2_BF_selects fp sched task C1 C2 ts hn hedges
    rw [h] at h2
    have hp : p = p2 := (Prod.mk.inj (Option.some.inj h2)).1
    rw [hp]
    exact hmin

/-- An instance of `ties_broken_by_lowest_index`: task `0` of `tri_sched` on
two idle processors, where both processors have the same cost, for every
`double` arithmetic and the coefficients `main` passes; each selector returns
a processor, and it is the lowest-index minimum. -/
theorem ties_broken_by_lowest_index_example {D : Type} (fp : DoubleArith D) :
    (∃ p ts1, GC2 tri_sched 0 (TimeSchedule.init 2) = some (p, ts1) ∧
      lowest_index_minimum (cost_GC2 tri_sched 0 (TimeSchedule.init 2))
        (TimeSchedule.init 2).proc_array.length p) ∧
    (∃ p ts1, GC2_CR fp tri_sched 0 (fp.of_int 1) (fp.of_int 1) (fp.lit (1 / 2))
        (TimeSchedule.init 2) = some (p, ts1) ∧
      lowest_index_minimum
        (cost_CR fp tri_sched 0 (fp.of_int 1) (fp.of_int 1) (TimeSchedule.init 2))
        (TimeSchedule.init 2).proc_array.length p) ∧
    (∃ p ts1, GC2_BF fp tri_sched 0 (fp.of_int 1) (fp.lit (7 / 10))
        (TimeSchedule.init 2) = some (p, ts1) ∧
      lowest_index_minimum
        (cost_BF fp tri_sched 0 (fp.of_int 1) (fp.lit (7 / 10)) (TimeSchedule.init 2))
        (TimeSchedule.init 2).proc_array.length p) := by
  have h := ties_broken_by_lowest_index fp tri_sched 0 (fp.of_int 1) (fp.of_int 1)
    (fp.lit (1 / 2)) (TimeSchedule.init 2)
  have hBF := (ties_broken_by_lowest_index fp tri_sched 0 (fp.of_int 1) (fp.lit (7 / 10))
    (fp.lit 0) (TimeSchedule.init 2)).2.2
  have hn : 0 < (TimeSchedule.init 2).proc_array.length := by decide
  have hedges : tri_sched.get_in_edges 0 ≠ [] := by decide
  have hnum : tri_sched.num_edges ≠ 0 := by decide
  obtain ⟨⟨p1, t1⟩, h1⟩ := h.1.1.mpr ⟨hn, hedges⟩
  obtain ⟨⟨p2, t2⟩, h2⟩ := h.2.1.1.mpr ⟨hn, hedges, hnum⟩
  obtain ⟨⟨p3, t3⟩, h3⟩ := hBF.1.mpr ⟨hn, hedges⟩
  exact ⟨⟨p1, t1, h1, h.1.2 p1 t1 h1⟩, ⟨p2, t2, h2, h.2.1.2 p2 t2 h2⟩,
    ⟨p3, t3, h3, hBF.2 p3 t3 h3⟩⟩

/-- Claim C17 (ties are broken by the lowest processor index, for every
task), evaluated on the code.  On a fresh `TimeSchedule(2)`, task `0` of
`skew_sched` has no incoming edge: each of `GC2`, `GC2_CR` and `GC2_BF`, with
any coefficients and any `double` arithmetic, calls `test_add_task` on it,
which dereferences `std::max_element` of an empty vector.  None of the three
selectors returns a processor, so none returns the lowest-index minimum. -/
theorem selectors_return_nothing_without_in_edges :
    0 < (TimeSchedule.init 2).proc_array.length ∧
    skew_sched.get_in_edges 0 = [] ∧
    (GC2 skew_sched 0 (TimeSchedule.init 2)).map Prod.fst = none ∧
    (∀ (D : Type) (fp : DoubleArith D) (C1 C2 C3 : D),
      (GC2_CR fp skew_sched 0 C1 C2 C3 (TimeSchedule.init 2)).map Prod.fst = none) ∧
    (∀ (D : Type) (fp : DoubleArith D) (C1 C2 : D),
      (GC2_BF fp skew_sched 0 C1 C2 (TimeSchedule.init 2)).map Prod.fst = none) := by
  refine ⟨by decide, rfl, rfl, ?_, ?_⟩
  · intro D fp C1 C2 C3
    rw [GC2_CR_none_of_no_edges fp skew_sched 0 C1 C2 C3 (TimeSchedule.init 2) rfl]
    rfl
  · intro D fp C1 C2
    rw [GC2_BF_none_of_no_edges fp skew_sched 0 C1 C2 (TimeSchedule.init 2) rfl]
    rfl

/-- Claim C18 (the loop runs exactly `taskCount` iterations), evaluated on
the code.  For the graph with one task and no edge, and for the chain
`0 → 1 → 2 → 3`, under each of the three criteria and with any iteration
budget: the first frontier is `[0]`, and the first iteration calls the
processor selector on a task without incoming edges, where `test_add_task`
dereferences `std::max_element` of an empty vector.  The loop has no result
instead of finishing after `1`, respectively `4`, iterations. -/
theorem driver_loop_undefined_at_first_iteration :
    get_top_vertices single_task = [0] ∧ get_top_vertices chain4 = [0] ∧
    (∀ (D : Type) (fp : DoubleArith D) (criteria : extra_criteria) (fuel : Nat),
      main_loop fp first_of_frontier criteria (fuel + 1) single_task
        (TimeSchedule.init single_task.proc_num) (get_top_vertices single_task) 0 =
        Outcome.undefined) ∧
    (∀ (D : Type) (fp : DoubleArith D) (criteria : extra_criteria) (fuel : Nat),
      main_loop fp first_of_frontier criteria (fuel + 1) chain4
        (TimeSchedule.init chain4.proc_num) (get_top_vertices chain4) 0 =
        Outcome.undefined) := by
  refine ⟨rfl, rfl, ?_, ?_⟩
  · intro D fp criteria fuel
    exact main_loop_undefined_on_fresh_graph fp first_of_frontier criteria fuel single_task _ 0
      rfl (by decide) (by decide)
  · intro D fp criteria fuel
    exact main_loop_undefined_on_fresh_graph fp first_of_frontier criteria fuel chain4 _ 0
      rfl (by decide) (by decide)

theorem size_t_arith (m n T : Nat) (hT : 0 < T) (hmT : m ≤ T) (hTle : T ≤ n * m)
    (hfit : 100 * (n * T) < 2 ^ 64) :
    (m * n) % 2 ^ 64 = m * n ∧ 1 ≤ m * n / T ∧
    (100 * (((m * n) % 2 ^ 64 / T + (2 ^ 64 - 1)) % 2 ^ 64)) % 2 ^ 64 =
      100 * (m * n / T - 1) := by
  have hmn : m * n ≤ n * T := by
    rw [Nat.mul_comm m n]
    exact Nat.mul_le_mul_left n hmT
  have hq1 : 1 ≤ m * n / T := by
    rw [Nat.le_div_iff_mul_le hT, Nat.one_mul, Nat.mul_comm m n]
    exact hTle
  have hq2 : m * n / T ≤ m * n := Nat.div_le_self _ _
  have hlt : m * n < 2 ^ 64 := by omega
  have hmod : (m * n) % 2 ^ 64 = m * n := Nat.mod_eq_of_lt hlt
  refine ⟨hmod, hq1, ?_⟩
  rw [hmod]
  generalize m * n / T = q at hq1 hq2
  generalize m * n = P at hq2 hmn hlt
  generalize n * T = R at hmn hfit
  omega

/-- Claim C19: for a `TimeSchedule` with at least one processor and at least
one committed task (of a size for which `100 * procCount * total` fits into
`std::size_t`), the product `maxTasks * procCount` does not overflow, the
unsigned quotient `maxTasks * procCount / total` is at least `1`, the
subtraction of `1` does not wrap, and `calculate_BF` returns
`100 * (quotient - 1)`, a value `≥ 0`; it returns exactly `0` when every
processor holds the same number of tasks. -/
theorem calculate_BF_no_wrap (ts : TimeSchedule) (hproc : 0 < ts.proc_array.length)
    (htask : 0 < total_tasks ts.proc_array)
    (hfit : 100 * (ts.proc_array.length * total_tasks ts.proc_array) < 2 ^ 64) :
    ∃ max_tasks : Nat,
      (∃ longest ∈ ts.proc_array, longest.length = max_tasks) ∧
      (∀ timeline ∈ ts.proc_array, timeline.length ≤ max_tasks) ∧
      (max_tasks * ts.proc_array.length) % 2 ^ 64 = max_tasks * ts.proc_array.length ∧
      1 ≤ max_tasks * ts.proc_array.length / total_tasks ts.proc_array ∧
      calculate_BF ts = some
        (100 * (max_tasks * ts.proc_array.length / total_tasks ts.proc_array - 1)) ∧
      ((∀ timeline ∈ ts.proc_array, timeline.length = max_tasks) →
        calculate_BF ts = some 0) := by
  have hne : ts.proc_array ≠ [] := by
    intro hnil
    rw [hnil] at hproc
    exact Nat.lt_irrefl 0 hproc
  obtain ⟨longest, hmem, hmax, hbf⟩ := calculate_BF_eq ts hne (Nat.pos_iff_ne_zero.mp htask)
  have hmT := length_le_total_tasks ts.proc_array longest hmem
  have hTle := total_tasks_le ts.proc_array longest.length hmax
  obtain ⟨h1, h2, h3⟩ := size_t_arith longest.length ts.proc_array.length
    (total_tasks ts.proc_array) htask hmT hTle hfit
  have hval : calculate_BF ts = some (100 * (longest.length * ts.proc_array.length /
      total_tasks ts.proc_array - 1)) := by
    rw [hbf, h3]
  refine ⟨longest.length, ⟨longest, hmem, rfl⟩, hmax, h1, h2, hval, ?_⟩
  intro hall
  have hT : total_tasks ts.proc_array = ts.proc_array.length * longest.length := by
    apply Nat.le_antisymm hTle
    have hrep : ts.proc_array.map List.length =
        List.replicate ts.proc_array.length longest.length := by
      rw [List.eq_replicate_iff]
      refine ⟨by simp, ?_⟩
      intro k hk
      obtain ⟨timeline, ht, hlen⟩ := List.mem_map.mp hk
      rw [← hlen]
      exact hall timeline ht
    simp only [total_tasks, hrep, List.sum_replicate, smul_eq_mul]
    exact le_refl _
  rw [hval, hT, Nat.mul_comm longest.length ts.proc_array.length,
    Nat.div_self (by rw [← hT]; exact htask)]

/-- Witness of `calculate_BF_no_wrap`: the state with task counts `(2, 1)` on
two processors, where the quotient is `2 * 2 / 3 = 1`, and the state with
task counts `(1, 1)`, where every processor holds the same number of tasks
and the result is `0`. -/
theorem calculate_BF_no_wrap_witness :
    (0 < two_one_state.proc_array.length ∧ 0 < total_tasks two_one_state.proc_array ∧
      100 * (two_one_state.proc_array.length * total_tasks two_one_state.proc_array) < 2 ^ 64 ∧
      ∃ max_tasks : Nat,
        (∃ longest ∈ two_one_state.proc_array, longest.length = max_tasks) ∧
        (∀ timeline ∈ two_one_state.proc_array, timeline.length ≤ max_tasks) ∧
        (max_tasks * two_one_state.proc_array.length) % 2 ^ 64 =
          max_tasks * two_one_state.proc_array.length ∧
        1 ≤ max_tasks * two_one_state.proc_array.length /
          total_tasks two_one_state.proc_array ∧
        calculate_BF two_one_state = some
          (100 * (max_tasks * two_one_state.proc_array.length /
            total_tasks two_one_state.proc_array - 1)) ∧
        ((∀ timeline ∈ two_one_state.proc_array, timeline.length = max_tasks) →
          calculate_BF two_one_state = some 0)) ∧
    (crossed_state.proc_array.map List.length = [1, 1] ∧
      calculate_BF crossed_state = some 0) := by
  refine ⟨⟨by decide, by decide, by decide,
    calculate_BF_no_wrap two_one_state (by decide) (by decide) (by decide)⟩, rfl, ?_⟩
  obtain ⟨m, ⟨longest, hl, hlm⟩, -, -, -, -, hzero⟩ :=
    calculate_BF_no_wrap crossed_state (by decide) (by decide) (by decide)
  have hall : ∀ timeline ∈ crossed_state.proc_array, timeline.length = 1 := by decide
  have hm : m = 1 := by rw [← hlm]; exact hall longest hl
  exact hzero (fun timeline ht => by rw [hm]; exact hall timeline ht)

/-! ## The transition counters -/

theorem add_task_counters (sched : Schedule) (task : Task) (proc : Proc)
    (ts ts1 : TimeSchedule) (h : add_task sched task proc ts = some ts1) :
    ∃ a b, ts1.amount_of_transitions = ts.amount_of_transitions + a ∧
      ts1.amount_of_indirect_transitions = ts.amount_of_indirect_transitions + b ∧
      b ≤ a ∧ a ≤ (sched.get_in_edges task).length := by
  obtain ⟨h1, timeline, h2⟩ := add_task_some_inv sched task proc ts ts1 h
  obtain ⟨x, ts0, -, -, -, -, heq⟩ := add_task_eq sched task proc ts timeline h1 h2
  rw [heq] at h
  have hts := (Option.some.inj h).symm
  subst hts
  refine ⟨_, _, rfl, rfl, ?_, ?_⟩
  · exact List.length_filter_le _ _
  · exact List.length_filter_le _ _

theorem reachable_indirect_le (P : Schedule → Prop) (proc_num : Nat) (ts : TimeSchedule)
    (h : Reachable P proc_num ts) :
    ts.amount_of_indirect_transitions ≤ ts.amount_of_transitions := by
  induction h with
  | init => exact le_refl _
  | step sched task proc _ _ hadd ih =>
    obtain ⟨a, b, ha, hb, hba, -⟩ := add_task_counters sched task proc _ _ hadd
    omega

theorem run_commits_transitions (sched : Schedule) (trace : List (Task × Proc)) :
    ∀ (ts0 ts : TimeSchedule), run_commits sched trace ts0 = some ts →
      ts.amount_of_transitions ≤ ts0.amount_of_transitions +
        ((trace.map Prod.fst).map (fun task => (sched.get_in_edges task).length)).sum := by
  induction trace with
  | nil =>
    intro ts0 ts h
    simp only [run_commits, Option.some.injEq] at h
    subst h
    simp
  | cons c rest ih =>
    intro ts0 ts h
    obtain ⟨task, proc⟩ := c
    simp only [run_commits] at h
    cases hadd : add_task sched task proc ts0 with
    | none => rw [hadd] at h; exact Option.noConfusion h
    | some ts1 =>
      rw [hadd] at h
      obtain ⟨a, b, ha, -, -, hle⟩ := add_task_counters sched task proc ts0 ts1 hadd
      have hrec := ih ts1 ts h
      simp only [List.map_cons, List.sum_cons]
      omega

theorem length_filter_disjoint {α : Type} (l : List α) (p q r : α → Bool)
    (hr : ∀ x, r x = (p x || q x)) (hdisj : ∀ x, p x = true → q x = true → False) :
    (l.filter r).length = (l.filter p).length + (l.filter q).length := by
  induction l with
  | nil => rfl
  | cons x rest ih =>
    have hx := hr x
    have hd := hdisj x
    cases hp : p x <;> cases hq : q x <;>
      simp [List.filter_cons, hx, hp, hq, ih] at hd ⊢ <;> omega

theorem in_degree_sum (edges : List (Task × Task)) (committed : List Task)
    (hnodup : committed.Nodup) :
    (committed.map (fun task => (in_edges_of edges task).length)).sum =
      (edges_into edges committed).length := by
  induction committed with
  | nil => simp [edges_into]
  | cons c cs ih =>
    have hc : c ∉ cs := (List.nodup_cons.mp hnodup).1
    have hrec := ih (List.nodup_cons.mp hnodup).2
    simp only [List.map_cons, List.sum_cons, hrec]
    unfold edges_into in_edges_of
    rw [List.length_map]
    rw [length_filter_disjoint edges (fun e => e.2 == c) (fun e => decide (e.2 ∈ cs))
      (fun e => decide (e.2 ∈ c :: cs))]
    · intro e
      by_cases h : e.2 = c <;> simp [h]
    · intro e h1 h2
      simp only [beq_iff_eq] at h1
      simp only [decide_eq_true_eq] at h2
      rw [h1] at h2
      exact hc h2

theorem run_commits_reachable (sched : Schedule) (trace : List (Task × Proc)) :
    ∀ (proc_num : Nat) (ts0 ts : TimeSchedule), Reachable (fun _ => True) proc_num ts0 →
      run_commits sched trace ts0 = some ts → Reachable (fun _ => True) proc_num ts := by
  induction trace with
  | nil =>
    intro proc_num ts0 ts h0 h
    simp only [run_commits, Option.some.injEq] at h
    subst h
    exact h0
  | cons c rest ih =>
    intro proc_num ts0 ts h0 h
    obtain ⟨task, proc⟩ := c
    simp only [run_commits] at h
    cases hadd : add_task sched task proc ts0 with
    | none => rw [hadd] at h; exact Option.noConfusion h
    | some ts1 =>
      rw [hadd] at h
      exact ih proc_num ts1 ts (Reachable.step sched task proc h0 trivial hadd) h

/-- Claim C20: in every state reached from the empty `TimeSchedule` by
`add_task` calls, `amount_of_indirect_transitions ≤ amount_of_transitions`;
and when the state is the result of commits against one graph in which every
task is committed at most once, `amount_of_transitions` is at most the number
of edges of the graph whose target has been committed. -/
theorem transition_counters_bounded (P : Schedule → Prop) (proc_num : Nat)
    (ts : TimeSchedule) (hreach : Reachable P proc_num ts) :
    ts.amount_of_indirect_transitions ≤ ts.amount_of_transitions ∧
    ∀ (sched : Schedule) (edges : List (Task × Task)) (trace : List (Task × Proc)),
      (∀ task, sched.get_in_edges task = in_edges_of edges task) →
      run_commits sched trace (TimeSchedule.init proc_num) = some ts →
      (trace.map Prod.fst).Nodup →
      ts.amount_of_transitions ≤ (edges_into edges (trace.map Prod.fst)).length := by
  refine ⟨reachable_indirect_le P proc_num ts hreach, ?_⟩
  intro sched edges trace hgraph hrun hnodup
  have h := run_commits_transitions sched trace _ ts hrun
  have hfun : (fun task => (sched.get_in_edges task).length) =
      (fun task => (in_edges_of edges task).length) := by
    funext task
    rw [hgraph task]
  rw [hfun, in_degree_sum edges _ hnodup] at h
  simpa [TimeSchedule.init] using h

theorem chain_sched_edges : ∀ task, chain_sched.get_in_edges task = in_edges_of chain_edges task := by
  intro task
  by_cases h0 : task = 0
  · subst h0; rfl
  · by_cases h1 : task = 1
    · subst h1; rfl
    · have e0 : (0 == task) = false := by simpa using fun h => h0 h.symm
      have e1 : (1 == task) = false := by simpa using fun h => h1 h.symm
      simp [chain_sched, in_edges_of, chain_edges, h0, h1, List.filter_cons, e0, e1]

/-- Witness of `transition_counters_bounded`: task `0` of `chain_sched`
committed on processor `0`, then task `1` on processor `1`; one transition,
no indirect one, and both edges of the graph end in a committed task. -/
theorem transition_counters_bounded_witness :
    Reachable (fun _ => True) 2 crossed_state ∧
    (∀ task, chain_sched.get_in_edges task = in_edges_of chain_edges task) ∧
    run_commits chain_sched [(0, 0), (1, 1)] (TimeSchedule.init 2) = some crossed_state ∧
    ([(0, 0), (1, 1)].map Prod.fst : List Task).Nodup ∧
    crossed_state.amount_of_transitions = 1 ∧
    (edges_into chain_edges ([(0, 0), (1, 1)].map Prod.fst)).length = 2 ∧
    crossed_state.amount_of_indirect_transitions ≤ crossed_state.amount_of_transitions ∧
    crossed_state.amount_of_transitions ≤
      (edges_into chain_edges ([(0, 0), (1, 1)].map Prod.fst)).length := by
  have hreach : Reachable (fun _ => True) 2 crossed_state :=
    run_commits_reachable chain_sched [(0, 0), (1, 1)] 2 (TimeSchedule.init 2) crossed_state
      Reachable.init rfl
  have h := transition_counters_bounded (fun _ => True) 2 crossed_state hreach
  exact ⟨hreach, chain_sched_edges, rfl, by decide, rfl, rfl, h.1,
    h.2 chain_sched chain_edges [(0, 0), (1, 1)] chain_sched_edges rfl (by decide)⟩

end MultiprocessorScheduling
